import Mathlib

/-!
# Verification of the configuration-value core (`config_value.cpp`)

This file gives a shallow embedding of `caf::config_value` from
`src/libcaf_core/src/config_value.cpp` and proves properties of it.

Modelling conventions:

* The nine-variant tagged union `config_value` becomes the mutual inductive
  `ConfigValue` / `CVList` / `CVDict`.  `config_value::list` (a
  `std::vector<config_value>`) is `CVList`; `config_value::dictionary` (a
  string-keyed flat map, iterated in a stable order) is `CVDict`, an
  association sequence in iteration order.
* `int64_t` is modelled as `ℤ`; the explicit bounds `int64Min`/`int64Max`
  appear wherever the code performs a range check.
* `double` is modelled as `R64`: either a finite rational value or one of
  the non-finite values `posInf`, `negInf`, `nan`.  Finite doubles are
  dyadic rationals, a subset of the rationals whose denominator divides a
  power of ten; the well-formedness predicate `wfR` restricts finite
  payloads to that set.  The negative zero value is not modelled.
  `static_cast<double>` of `int64_t` max rounds to nearest, giving exactly
  `2^63` (`int64MaxAsReal`); `int64_t` min is exactly representable.
* `expected<T>`/`caf::error` become `Except` with the error enums `Pec`
  (parser error codes) and `CErr` (`sec::conversion_failed`); error message
  strings are not modelled.
* Helpers that the translation unit calls but whose definitions are outside
  `src/` (`caf::detail::parse`, `caf::detail::parser::read_config_value`,
  `caf::detail::stringification_inspector`, `caf::detail::print`,
  `caf::deep_to_string`, `caf::uri`, `caf::detail::parse_impl`) are modelled
  from the specification; each such definition carries a doc comment that
  says so.  Comment stripping (`#`, `//`, `/* ... */`) belongs to the
  config-file layer and is not modelled; no property below exercises it.
-/

/-- Parser error codes (`caf::pec`) surfaced by the grammar layer. -/
inductive Pec where
  | unexpectedEof
  | unexpectedCharacter
  | trailingCharacter
  | integerOverflow
  | invalidEscapeSequence
  deriving DecidableEq, Repr

/-- Conversion errors (`caf::sec::conversion_failed`); the accompanying
message text is not modelled. -/
inductive CErr where
  | conversionFailed
  deriving DecidableEq, Repr

/-- A 64-bit IEEE-754 double: a finite value (a rational) or one of the
non-finite values.  Negative zero is not modelled. -/
inductive R64 where
  | fin (q : ℚ)
  | posInf
  | negInf
  | nan
  deriving DecidableEq, Repr

/-- Smallest `int64_t` value, `-2^63`. -/
def int64Min : ℤ := -9223372036854775808

/-- Largest `int64_t` value, `2^63 - 1`. -/
def int64Max : ℤ := 9223372036854775807

/-- The value of `static_cast<config_value::real>(int64 max)`: `2^63 - 1` is
not representable as a double and the conversion rounds to nearest, giving
exactly `2^63`. -/
def int64MaxAsReal : ℚ := ((9223372036854775808 : ℤ) : ℚ)

/-- The value of `static_cast<config_value::real>(int64 min)`: `-2^63` is a
power of two and hence exactly representable. -/
def int64MinAsReal : ℚ := ((-9223372036854775808 : ℤ) : ℚ)

mutual
/-- The tagged union `caf::config_value`, with its nine variants in
discriminator order: none, integer, boolean, real, timespan, uri, string,
list, dictionary.  URIs are carried as their textual form (the `caf::uri`
class itself is outside `src/`). -/
inductive ConfigValue where
  | none
  | integer (n : ℤ)
  | boolean (b : Bool)
  | real (r : R64)
  | timespan (ns : ℤ)
  | uri (u : String)
  | string (s : String)
  | list (xs : CVList)
  | dict (xs : CVDict)
  deriving DecidableEq, Repr
/-- `config_value::list`, i.e. `std::vector<config_value>`. -/
inductive CVList where
  | nil
  | cons (x : ConfigValue) (xs : CVList)
  deriving DecidableEq, Repr
/-- `config_value::dictionary`: string-keyed entries in iteration order. -/
inductive CVDict where
  | nil
  | cons (k : String) (v : ConfigValue) (xs : CVDict)
  deriving DecidableEq, Repr
end

/-- Discriminator index of the stored variant (`data_.index()`). -/
def ConfigValue.tagIndex : ConfigValue → ℕ
  | .none => 0
  | .integer _ => 1
  | .boolean _ => 2
  | .real _ => 3
  | .timespan _ => 4
  | .uri _ => 5
  | .string _ => 6
  | .list _ => 7
  | .dict _ => 8

/-- The `type_names` table from the anonymous namespace. -/
def typeNames : List String :=
  ["none", "integer", "boolean", "real", "timespan", "uri", "string", "list",
   "dictionary"]

/-- `config_value::type_name`. -/
def ConfigValue.type_name (v : ConfigValue) : String :=
  typeNames.getD v.tagIndex ""

/-- Append one element at the end of a list (`std::vector::emplace_back`). -/
def CVList.push : CVList → ConfigValue → CVList
  | .nil, x => .cons x .nil
  | .cons y ys, x => .cons y (ys.push x)

/-- Last element of a list, if any. -/
def CVList.getLast : CVList → Option ConfigValue
  | .nil => Option.none
  | .cons x .nil => Option.some x
  | .cons _ (.cons y ys) => CVList.getLast (.cons y ys)

/-- `config_value::convert_to_list`: keep a list unchanged, turn `none` into
the empty list, and wrap any other value into a singleton list. -/
def ConfigValue.convert_to_list : ConfigValue → ConfigValue
  | .list xs => .list xs
  | .none => .list .nil
  | v => .list (.cons v .nil)

/-- `config_value::append`: `convert_to_list` followed by `emplace_back`. -/
def ConfigValue.append (v x : ConfigValue) : ConfigValue :=
  match v.convert_to_list with
  | .list xs => .list (xs.push x)
  | w => w

/-- `config_value::to_boolean`: identity on the boolean alternative, the
exact strings `"true"` and `"false"` convert, everything else is
`sec::conversion_failed`. -/
def ConfigValue.to_boolean : ConfigValue → Except CErr Bool
  | .boolean x => .ok x
  | .string x =>
    if x = "true" then .ok true
    else if x = "false" then .ok false
    else .error .conversionFailed
  | _ => .error .conversionFailed

/-- The real-to-integer lambda inside `config_value::to_integer`: accept a
finite value (`std::isfinite`) with zero fractional part
(`std::fmod(x, 1.0) == 0.0`) lying between the int64 limits converted to
double, and cast it.  For a value of exactly `2^63` the check passes even
though the subsequent cast overflows `int64_t` (undefined behavior in C++);
the model returns the mathematical value. -/
def realToInteger : R64 → Except CErr ℤ
  | .fin q =>
    if q.den = 1 ∧ int64MinAsReal ≤ q ∧ q ≤ int64MaxAsReal then .ok q.num
    else .error .conversionFailed
  | _ => .error .conversionFailed

/-- Numeric value of a decimal digit character. -/
def digitVal (c : Char) : ℕ := c.toNat - 48

/-- Decimal digit test, phrased on character codes. -/
def isDigitC (c : Char) : Bool := 48 ≤ c.toNat && c.toNat ≤ 57

/-- Letter test, phrased on character codes. -/
def isAlphaC (c : Char) : Bool :=
  (65 ≤ c.toNat && c.toNat ≤ 90) || (97 ≤ c.toNat && c.toNat ≤ 122)

/-- Value of a run of decimal digits, most significant first. -/
def decValue (ds : List Char) : ℕ := ds.foldl (fun a c => 10 * a + digitVal c) 0

/-- Octal digit test. -/
def isOctDigit (c : Char) : Bool := 48 ≤ c.toNat && c.toNat ≤ 55

/-- Binary digit test. -/
def isBinDigit (c : Char) : Bool := c = '0' || c = '1'

/-- Hexadecimal digit test. -/
def isHexDigitC (c : Char) : Bool :=
  isDigitC c || (97 ≤ c.toNat && c.toNat ≤ 102) || (65 ≤ c.toNat && c.toNat ≤ 70)

/-- Numeric value of a hexadecimal digit character. -/
def hexVal (c : Char) : ℕ :=
  if isDigitC c then c.toNat - 48
  else if 97 ≤ c.toNat && c.toNat ≤ 102 then c.toNat - 87
  else c.toNat - 55

/-- Value of a run of hexadecimal digits. -/
def hexValue (ds : List Char) : ℕ := ds.foldl (fun a c => 16 * a + hexVal c) 0

/-- Value of a run of octal digits. -/
def octValue (ds : List Char) : ℕ := ds.foldl (fun a c => 8 * a + digitVal c) 0

/-- Value of a run of binary digits. -/
def binValue (ds : List Char) : ℕ := ds.foldl (fun a c => 2 * a + digitVal c) 0

/-- A scanned number literal: sign, magnitude numerator over a power-of-ten
denominator, and whether a fractional part or exponent occurred (making the
literal a real rather than an integer). -/
structure NumLit where
  neg : Bool
  num : ℕ
  den : ℕ
  isReal : Bool
  deriving DecidableEq, Repr

/-- The rational value of a scanned literal. -/
def NumLit.toRat (l : NumLit) : ℚ :=
  Rat.divInt ((if l.neg then -1 else 1) * l.num) l.den

/-- Scan exponent digits with a known sign. -/
def readExponentDigits (sgn : ℤ) (cs : List Char) : Except Pec (ℤ × List Char) :=
  if (cs.takeWhile isDigitC).isEmpty then .error .unexpectedCharacter
  else .ok (sgn * decValue (cs.takeWhile isDigitC), cs.dropWhile isDigitC)

/-- Scan an exponent that follows `e`/`E`: optional sign, then at least one
decimal digit. -/
def readExponent (cs : List Char) : Except Pec (ℤ × List Char) :=
  match cs with
  | [] => .error .unexpectedCharacter
  | c :: t =>
    if c = '+' then readExponentDigits 1 t
    else if c = '-' then readExponentDigits (-1) t
    else readExponentDigits 1 (c :: t)

/-- Scale a significand `n0 / 10^k` by `10^e`, keeping numerator and
denominator as naturals. -/
def applyExp (n0 k : ℕ) (e : ℤ) : ℕ × ℕ :=
  if 0 ≤ e then (n0 * 10 ^ e.toNat, 10 ^ k) else (n0, 10 ^ k * 10 ^ (-e).toNat)

/-- After the significand of a decimal literal, scan an optional exponent and
assemble the literal.  `n0 / 10^k` is the significand scanned so far and
`isR` records whether a decimal point occurred. -/
def readExpOpt (neg : Bool) (n0 k : ℕ) (isR : Bool) :
    List Char → Except Pec (NumLit × List Char)
  | [] => .ok (⟨neg, n0, 10 ^ k, isR⟩, [])
  | c :: t =>
    if c = 'e' ∨ c = 'E' then
      match readExponent t with
      | .ok (e, r) => .ok (⟨neg, (applyExp n0 k e).1, (applyExp n0 k e).2, true⟩, r)
      | .error err => .error err
    else .ok (⟨neg, n0, 10 ^ k, isR⟩, c :: t)

/-- After the integer digits of a decimal literal, scan an optional
fractional part and exponent. -/
def readDecTail (neg : Bool) (intDigits : List Char) :
    List Char → Except Pec (NumLit × List Char)
  | [] => readExpOpt neg (decValue intDigits) 0 false []
  | c :: t =>
    if c = '.' then
      readExpOpt neg
        (decValue intDigits * 10 ^ (t.takeWhile isDigitC).length
          + decValue (t.takeWhile isDigitC))
        (t.takeWhile isDigitC).length true (t.dropWhile isDigitC)
    else readExpOpt neg (decValue intDigits) 0 false (c :: t)

/-- Scan the body of a number literal per the grammar: decimal digits,
`0x`/`0X` hexadecimal, `0b`/`0B` binary, or `0`-prefixed octal; a decimal
literal may carry a fractional part and an exponent.  Bounds are not
checked here. -/
def readNumberBody (neg : Bool) : List Char → Except Pec (NumLit × List Char)
  | [] => .error .unexpectedEof
  | c :: t =>
    if c = '0' then
      match t with
      | [] => .ok (⟨neg, 0, 1, false⟩, [])
      | c2 :: t2 =>
        if c2 = 'x' ∨ c2 = 'X' then
          if (t2.takeWhile isHexDigitC).isEmpty then .error .unexpectedCharacter
          else .ok (⟨neg, hexValue (t2.takeWhile isHexDigitC), 1, false⟩,
            t2.dropWhile isHexDigitC)
        else if c2 = 'b' ∨ c2 = 'B' then
          if (t2.takeWhile isDigitC).isEmpty ∨
              ¬((t2.takeWhile isDigitC).all isBinDigit) then
            .error .unexpectedCharacter
          else .ok (⟨neg, binValue (t2.takeWhile isDigitC), 1, false⟩,
            t2.dropWhile isDigitC)
        else if isDigitC c2 then
          if ((c2 :: t2).takeWhile isDigitC).all isOctDigit then
            .ok (⟨neg, octValue ((c2 :: t2).takeWhile isDigitC), 1, false⟩,
              (c2 :: t2).dropWhile isDigitC)
          else .error .unexpectedCharacter
        else if c2 = '.' ∨ c2 = 'e' ∨ c2 = 'E' then
          readDecTail neg ['0'] (c2 :: t2)
        else .ok (⟨neg, 0, 1, false⟩, c2 :: t2)
    else if isDigitC c then
      readDecTail neg ((c :: t).takeWhile isDigitC)
        ((c :: t).dropWhile isDigitC)
    else .error .unexpectedCharacter

/-- Scan a number literal: optional sign, then the number body. -/
def readNumber : List Char → Except Pec (NumLit × List Char)
  | [] => .error .unexpectedEof
  | c :: t =>
    if c = '-' then readNumberBody true t
    else if c = '+' then readNumberBody false t
    else readNumberBody false (c :: t)

/-- Modelled from the spec: `caf::detail::parse` into an `int64_t`
(§4.1 integer grammar), missing from `src/`.  The whole string must be an
integer literal within the int64 range; no surrounding whitespace is
accepted. -/
def parse_i64 (s : String) : Option ℤ :=
  match readNumber s.toList with
  | .ok (l, []) =>
    if l.isReal then Option.none
    else
      let n : ℤ := (if l.neg then -1 else 1) * l.num
      if int64Min ≤ n ∧ n ≤ int64Max then Option.some n else Option.none
  | _ => Option.none

/-- Modelled from the spec: `caf::detail::parse` into a `double`
(§4.1 real grammar), missing from `src/`.  The whole string must be a
number literal; a plain integer literal is accepted as a real. -/
def parse_real (s : String) : Option ℚ :=
  match readNumber s.toList with
  | .ok (l, []) => Option.some l.toRat
  | _ => Option.none

/-- `config_value::to_integer`: identity on integers; finite integral
in-range reals convert (see `realToInteger`); strings are parsed as an
integer first and as a real second (the code re-dispatches through
`config_value{tmp_real}.to_integer()`, which is the real case); every other
variant is `sec::conversion_failed`. -/
def ConfigValue.to_integer : ConfigValue → Except CErr ℤ
  | .integer x => .ok x
  | .real x => realToInteger x
  | .string x =>
    match parse_i64 x with
    | Option.some n => .ok n
    | Option.none =>
      match parse_real x with
      | Option.some q => realToInteger (.fin q)
      | Option.none => .error .conversionFailed
  | _ => .error .conversionFailed

/-- Decimal digit character for a value below ten. -/
def digitCharOf : ℕ → Char
  | 0 => '0'
  | 1 => '1'
  | 2 => '2'
  | 3 => '3'
  | 4 => '4'
  | 5 => '5'
  | 6 => '6'
  | 7 => '7'
  | 8 => '8'
  | _ => '9'

/-- Fueled most-significant-first decimal printer for naturals. -/
def natCharsAux : ℕ → ℕ → List Char → List Char
  | 0, _, acc => acc
  | f+1, n, acc =>
    if n < 10 then digitCharOf n :: acc
    else natCharsAux f (n / 10) (digitCharOf (n % 10) :: acc)

/-- Decimal digits of a natural number, most significant first. -/
def natChars (n : ℕ) : List Char := natCharsAux (n + 1) n []

/-- Decimal rendering of an integer, with a leading sign only when
negative. -/
def intChars (n : ℤ) : List Char :=
  if n < 0 then '-' :: natChars n.natAbs else natChars n.natAbs

/-- Escape one character for a quoted string: `"`, `\`, newline, carriage
return and tab are escaped, all other characters print verbatim. -/
def escChar (c : Char) : List Char :=
  if c = '"' then ['\\', '"']
  else if c = '\\' then ['\\', '\\']
  else if c = '\n' then ['\\', 'n']
  else if c = '\r' then ['\\', 'r']
  else if c = '\t' then ['\\', 't']
  else [c]

/-- Escape every character of a string body. -/
def escapeChars : List Char → List Char
  | [] => []
  | c :: cs => escChar c ++ escapeChars cs

/-- Modelled from the spec: `detail::print_escaped` /
`stringification_inspector` string output, missing from `src/`: the string
in double quotes with C-style escapes (§4.4: strings are quoted). -/
def printEscaped (s : String) : List Char := '"' :: (escapeChars s.toList ++ ['"'])

/-- Nanosecond multipliers of the timespan suffixes (§4.1). -/
def timespanMult : List Char → Option ℕ
  | ['n', 's'] => Option.some 1
  | ['u', 's'] => Option.some 1000
  | ['m', 's'] => Option.some 1000000
  | ['s'] => Option.some 1000000000
  | ['m', 'i', 'n'] => Option.some 60000000000
  | ['h'] => Option.some 3600000000000
  | _ => Option.none

/-- Largest unit that divides a nanosecond magnitude evenly (§4.4). -/
def pickUnit (n : ℕ) : ℕ × List Char :=
  if 3600000000000 ∣ n then (3600000000000, ['h'])
  else if 60000000000 ∣ n then (60000000000, ['m', 'i', 'n'])
  else if 1000000000 ∣ n then (1000000000, ['s'])
  else if 1000000 ∣ n then (1000000, ['m', 's'])
  else if 1000 ∣ n then (1000, ['u', 's'])
  else (1, ['n', 's'])

/-- Modelled from the spec: `detail::print` for timespans, missing from
`src/`: the magnitude followed by the largest unit yielding a whole number
(`timespan(4ns)` prints `4ns`, `timespan(42s)` prints `42s`). -/
def printTimespan (n : ℤ) : List Char :=
  (if n < 0 then ['-'] else [])
    ++ natChars (n.natAbs / (pickUnit n.natAbs).1) ++ (pickUnit n.natAbs).2

/-- Search for an exponent `k` (up to the fuel) with `den ∣ 10^k`. -/
def findPow10 : ℕ → ℕ → ℕ → Option ℕ
  | 0, _, _ => Option.none
  | f+1, den, k =>
    if den ∣ 10 ^ k then Option.some k else findPow10 f den (k + 1)

/-- Exactly `k` decimal digits of `r < 10^k`, with leading zeros. -/
def padDigits : ℕ → ℕ → List Char
  | 0, _ => []
  | k+1, r => digitCharOf (r / 10 ^ k) :: padDigits k (r % 10 ^ k)

/-- Exact decimal rendering of the non-negative rational `num / den` whose
denominator divides a power of ten, with a decimal point always present
(an integral value prints as `1.`, which the grammar reads back as a real).
Falls back to `0.` on a denominator that is not 10-smooth; well-formed
reals never take that branch. -/
def printRealPos (num den : ℕ) : List Char :=
  match findPow10 (den + 1) den 0 with
  | Option.some k =>
    natChars (num * (10 ^ k / den) / 10 ^ k) ++
      '.' :: padDigits k (num * (10 ^ k / den) % 10 ^ k)
  | Option.none => ['0', '.']

/-- Modelled from the spec: `detail::print` for doubles, missing from
`src/`.  The spec (§4.4, §9) requires a decimal form that re-parses to the
same value; the model always keeps a decimal point so that integral reals
stay reals across a round trip.  Non-finite values print as `inf`, `-inf`
and `nan`. -/
def printReal : R64 → List Char
  | .fin q =>
    if q.num < 0 then '-' :: printRealPos (-q.num).toNat q.den
    else printRealPos q.num.toNat q.den
  | .posInf => ['i', 'n', 'f']
  | .negInf => ['-', 'i', 'n', 'f']
  | .nan => ['n', 'a', 'n']

mutual
/-- Modelled from the spec: the canonical printer — the free `to_string`
built from `to_string_visitor`, `stringification_inspector` and
`detail::print`, of which only the visitor is in `src/`.  `none` prints
`null`, URIs print their textual form, strings print quoted and escaped,
lists print as `[x, y]` and dictionaries as `{"k" = v}` with keys printed
through the same string inspector. -/
def printValue : ConfigValue → List Char
  | .none => ['n', 'u', 'l', 'l']
  | .integer n => intChars n
  | .boolean b => if b then "true".toList else "false".toList
  | .real r => printReal r
  | .timespan n => printTimespan n
  | .uri u => u.toList
  | .string s => printEscaped s
  | .list xs => '[' :: (printItems xs ++ [']'])
  | .dict xs => '{' :: (printEntries xs ++ ['}'])
/-- Comma-space-separated list elements. -/
def printItems : CVList → List Char
  | .nil => []
  | .cons x .nil => printValue x
  | .cons x (.cons y ys) =>
    printValue x ++ ',' :: ' ' :: printItems (.cons y ys)
/-- Comma-space-separated `key = value` entries. -/
def printEntries : CVDict → List Char
  | .nil => []
  | .cons k v .nil => printEscaped k ++ ' ' :: '=' :: ' ' :: printValue v
  | .cons k v (.cons k2 v2 ys) =>
    printEscaped k ++ ' ' :: '=' :: ' ' :: printValue v
      ++ ',' :: ' ' :: printEntries (.cons k2 v2 ys)
end

/-- The free function `caf::to_string` (canonical printer). -/
def to_string (v : ConfigValue) : String := ⟨printValue v⟩

/-- `config_value::to_string` (member).  The string case returns the stored
string itself (no quoting); `none` prints `null`; URIs print their textual
form; the remaining variants delegate to `detail::print` /
`deep_to_string`, modelled by the shared canonical printers.  The C++
return type `expected<std::string>` never holds an error, so the model
returns the string directly. -/
def ConfigValue.to_string : ConfigValue → String
  | .none => "null"
  | .string x => x
  | .uri x => x
  | .list xs => ⟨printValue (.list xs)⟩
  | .dict xs => ⟨printValue (.dict xs)⟩
  | v => ⟨printValue v⟩

/-- IEEE-754 equality on doubles: `nan` compares unequal to everything,
including itself. -/
def R64.ieeeEq : R64 → R64 → Bool
  | .fin a, .fin b => a == b
  | .posInf, .posInf => true
  | .negInf, .negInf => true
  | _, _ => false

mutual
/-- The free `operator==` on `config_value`: equality of the underlying
variants, i.e. same discriminator and equal contents, with lists and
dictionaries compared element-wise in iteration order and doubles compared
by IEEE equality. -/
def valueEq : ConfigValue → ConfigValue → Bool
  | .none, .none => true
  | .integer a, .integer b => a == b
  | .boolean a, .boolean b => a == b
  | .real a, .real b => a.ieeeEq b
  | .timespan a, .timespan b => a == b
  | .uri a, .uri b => a == b
  | .string a, .string b => a == b
  | .list a, .list b => listEq a b
  | .dict a, .dict b => dictEq a b
  | _, _ => false
/-- Element-wise list equality. -/
def listEq : CVList → CVList → Bool
  | .nil, .nil => true
  | .cons a as, .cons b bs => valueEq a b && listEq as bs
  | _, _ => false
/-- Entry-wise dictionary equality. -/
def dictEq : CVDict → CVDict → Bool
  | .nil, .nil => true
  | .cons k a as, .cons k2 b bs => k == k2 && valueEq a b && dictEq as bs
  | _, _ => false
end

/-- Membership of a key in a dictionary. -/
def dictHasKey : CVDict → String → Bool
  | .nil, _ => false
  | .cons k _ xs, k2 => k == k2 || dictHasKey xs k2

/-- Whitespace in the sense of `isspace`: space, tab, newline, vertical
tab, form feed, carriage return. -/
def isWsChar (c : Char) : Bool :=
  c.toNat = 32 || c.toNat = 9 || c.toNat = 10 || c.toNat = 13 ||
    c.toNat = 11 || c.toNat = 12

/-- Characters allowed in the textual form of a modelled URI: the model
restricts URIs to characters that no grammar production treats as a
delimiter. -/
def uriChar (c : Char) : Bool :=
  !(isWsChar c || c = ',' || c = '=' || c = ']' || c = '}' || c = '[' ||
    c = '{' || c = '"' || c = '\'')

/-- Modelled from the spec: validity of the textual form of a `caf::uri`
(the class is outside `src/`).  An absolute URI starts with a letter-led
scheme and contains `:`; the model additionally keeps URI text free of
grammar delimiters (no whitespace, brackets, braces, quotes, commas or
equals signs). -/
def validUri (s : String) : Bool :=
  match s.toList with
  | [] => false
  | c :: cs => isAlphaC c && (c :: cs).contains ':' && (c :: cs).all uriChar

/-- Finiteness of a double (`std::isfinite`). -/
def R64.isfinite : R64 → Bool
  | .fin _ => true
  | _ => false

/-- Well-formedness of a real payload: finite values must have a
denominator dividing a power of ten, which holds for every finite double
(doubles are dyadic rationals). -/
def wfR : R64 → Bool
  | .fin q => (findPow10 (q.den + 1) q.den 0).isSome
  | _ => true

mutual
/-- Well-formedness: the values the C++ program can actually hold.
Integer and timespan payloads fit in `int64_t`, finite real payloads are
representable decimals, URI payloads are valid URI text, and dictionary
keys are unique. -/
def wfValue : ConfigValue → Bool
  | .none => true
  | .integer n => decide (int64Min ≤ n ∧ n ≤ int64Max)
  | .boolean _ => true
  | .real r => wfR r
  | .timespan n => decide (int64Min ≤ n ∧ n ≤ int64Max)
  | .uri u => validUri u
  | .string _ => true
  | .list xs => wfList xs
  | .dict xs => wfDict xs
/-- Well-formedness of every list element. -/
def wfList : CVList → Bool
  | .nil => true
  | .cons x xs => wfValue x && wfList xs
/-- Well-formedness of every entry plus key uniqueness. -/
def wfDict : CVDict → Bool
  | .nil => true
  | .cons k v xs => !dictHasKey xs k && wfValue v && wfDict xs
end

mutual
/-- No `nan` real occurs anywhere in the value. -/
def nanFreeValue : ConfigValue → Bool
  | .real .nan => false
  | .list xs => nanFreeList xs
  | .dict xs => nanFreeDict xs
  | _ => true
/-- No `nan` in any list element. -/
def nanFreeList : CVList → Bool
  | .nil => true
  | .cons x xs => nanFreeValue x && nanFreeList xs
/-- No `nan` in any dictionary entry. -/
def nanFreeDict : CVDict → Bool
  | .nil => true
  | .cons _ v xs => nanFreeValue v && nanFreeDict xs
end

mutual
/-- The variants whose canonical text re-parses to the same value: `none`,
URIs and non-finite reals are excluded, everywhere in the tree. -/
def plainValue : ConfigValue → Bool
  | .none => false
  | .uri _ => false
  | .real r => r.isfinite
  | .list xs => plainList xs
  | .dict xs => plainDict xs
  | _ => true
/-- Round-trippable list elements. -/
def plainList : CVList → Bool
  | .nil => true
  | .cons x xs => plainValue x && plainList xs
/-- Round-trippable dictionary entries. -/
def plainDict : CVDict → Bool
  | .nil => true
  | .cons _ v xs => plainValue v && plainDict xs
end

/-- Decode a single-character escape. -/
def escUnescape (c : Char) : Option Char :=
  if c = 'n' then Option.some '\n'
  else if c = 't' then Option.some '\t'
  else if c = 'r' then Option.some '\r'
  else if c = '\\' then Option.some '\\'
  else if c = '"' then Option.some '"'
  else if c = '\'' then Option.some '\''
  else Option.none

/-- Read a quoted string body up to the closing quote `q`, decoding the
C-style escapes `\n`, `\t`, `\r`, `\\`, `\"`, `\'` and `\xHH`. -/
def readQuoted (q : Char) : List Char → Except Pec (List Char × List Char)
  | [] => .error .unexpectedEof
  | c :: cs =>
    if c = q then .ok ([], cs)
    else if c = '\\' then
      match cs with
      | [] => .error .unexpectedEof
      | e :: cs2 =>
        if e = 'x' then
          match cs2 with
          | h1 :: h2 :: cs3 =>
            if isHexDigitC h1 && isHexDigitC h2 then
              match readQuoted q cs3 with
              | .ok (s, r) => .ok (Char.ofNat (16 * hexVal h1 + hexVal h2) :: s, r)
              | .error er => .error er
            else .error .invalidEscapeSequence
          | _ => .error .invalidEscapeSequence
        else
          match escUnescape e with
          | Option.some c2 =>
            (match readQuoted q cs2 with
             | .ok (s, r) => .ok (c2 :: s, r)
             | .error er => .error er)
          | Option.none => .error .invalidEscapeSequence
    else
      match readQuoted q cs with
      | .ok (s, r) => .ok (c :: s, r)
      | .error er => .error er

/-- Characters that may appear in an unquoted string run: everything but
whitespace and the terminators `,`, `=`, `]`, `}` (§4.1). -/
def isRunChar (c : Char) : Bool :=
  !(isWsChar c || c = ',' || c = '=' || c = ']' || c = '}')

/-- Skip whitespace. -/
def skipWs (cs : List Char) : List Char := cs.dropWhile isWsChar

/-- Head-is-a-digit test, used to dispatch a leading sign into the number
production. -/
def headIsDigit : List Char → Bool
  | c :: _ => isDigitC c
  | [] => false

/-- The signed integer value of a scanned literal. -/
def NumLit.signedInt (l : NumLit) : ℤ := (if l.neg then -1 else 1) * l.num

/-- The signed nanosecond count of a literal under a unit multiplier. -/
def NumLit.signedNs (l : NumLit) (m : ℕ) : ℤ :=
  (if l.neg then -1 else 1) * ((l.num * m : ℕ) / l.den)

/-- Turn a scanned number literal and its (possibly empty) unit suffix into
a value: no suffix gives an integer (with an int64 bound check) or a real;
a timespan suffix multiplies into nanoseconds exactly; an unknown suffix is
a trailing-character error. -/
def numberToValue (l : NumLit) (unit : List Char) : Except Pec ConfigValue :=
  match unit with
  | [] =>
    if l.isReal then .ok (.real (.fin l.toRat))
    else if int64Min ≤ l.signedInt ∧ l.signedInt ≤ int64Max then
      .ok (.integer l.signedInt)
    else .error .integerOverflow
  | u =>
    match timespanMult u with
    | Option.some m =>
      if l.den ∣ l.num * m then
        if int64Min ≤ l.signedNs m ∧ l.signedNs m ≤ int64Max then
          .ok (.timespan (l.signedNs m))
        else .error .integerOverflow
      else .error .unexpectedCharacter
    | Option.none => .error .trailingCharacter

/-- Read a number or timespan: scan the literal, then a run of letters as
the optional unit suffix. -/
def readNumberValue (cs : List Char) : Except Pec (ConfigValue × List Char) :=
  match readNumber cs with
  | .ok (l, r) =>
    (match numberToValue l (r.takeWhile isAlphaC) with
     | .ok v => .ok (v, r.dropWhile isAlphaC)
     | .error e => .error e)
  | .error e => .error e

/-- Characters allowed in an unquoted dictionary key. -/
def isKeyChar (c : Char) : Bool :=
  !(isWsChar c || c = ',' || c = '=' || c = '{' || c = '}')

/-- Split a character run at every dot (dotted key paths, §4.1). -/
def splitDots : List Char → List (List Char)
  | [] => [[]]
  | '.' :: cs => [] :: splitDots cs
  | c :: cs =>
    match splitDots cs with
    | [] => [[c]]
    | l :: ls => (c :: l) :: ls

/-- Read a dictionary key: a quoted string (taken literally) or an
unquoted run, which is split at dots into a key path. -/
def readKey : List Char → Except Pec (List String × List Char)
  | [] => .error .unexpectedEof
  | c :: cs =>
    if c = '"' ∨ c = '\'' then
      match readQuoted c cs with
      | .ok (s, r) => .ok ([⟨s⟩], r)
      | .error e => .error e
    else if isKeyChar c then
      .ok ((splitDots ((c :: cs).takeWhile isKeyChar)).map (fun l => ⟨l⟩),
        (c :: cs).dropWhile isKeyChar)
    else .error .unexpectedCharacter

/-- First value stored under a key. -/
def dictFind : CVDict → String → Option ConfigValue
  | .nil, _ => Option.none
  | .cons k v xs, k2 => if k == k2 then Option.some v else dictFind xs k2

/-- Replace the value under the first occurrence of a key. -/
def dictReplace : CVDict → String → ConfigValue → CVDict
  | .nil, _, _ => .nil
  | .cons k v xs, k2, w =>
    if k == k2 then .cons k w xs else .cons k v (dictReplace xs k2 w)

/-- Append an entry at the end. -/
def dictAppend : CVDict → String → ConfigValue → CVDict
  | .nil, k, v => .cons k v .nil
  | .cons k2 v2 xs, k, v => .cons k2 v2 (dictAppend xs k v)

/-- Overwrite an existing key in place or append a fresh one (`put`). -/
def dictPut (d : CVDict) (k : String) (v : ConfigValue) : CVDict :=
  if dictHasKey d k then dictReplace d k v else dictAppend d k v

/-- Store a value under a dotted key path, creating intermediate
dictionaries; an existing non-dictionary at an intermediate position is an
error (§4.3). -/
def dictInsert : CVDict → List String → ConfigValue → Except Pec CVDict
  | _, [], _ => .error .unexpectedCharacter
  | acc, [k], v => .ok (dictPut acc k v)
  | acc, k :: k2 :: path, v =>
    match dictFind acc k with
    | Option.some (.dict d) =>
      (match dictInsert d (k2 :: path) v with
       | .ok d2 => .ok (dictReplace acc k (.dict d2))
       | .error e => .error e)
    | Option.some _ => .error .unexpectedCharacter
    | Option.none =>
      match dictInsert .nil (k2 :: path) v with
      | .ok d2 => .ok (dictAppend acc k (.dict d2))
      | .error e => .error e

mutual
/-- Modelled from the spec: one value of the grammar
(`detail::parser::read_config_value`, missing from `src/`).  Dispatch on
the first character: `[` opens a list, `{` a dictionary, a quote a quoted
string, a digit (or a sign followed by a digit) a number or timespan;
any other run character starts an unquoted run, classified by `classify`
(keywords versus plain strings).  The fuel only bounds recursion depth and
is immaterial when large enough. -/
def readValue (classify : List Char → ConfigValue) :
    ℕ → List Char → Except Pec (ConfigValue × List Char)
  | 0, _ => .error .unexpectedEof
  | _+1, [] => .error .unexpectedEof
  | f+1, c :: cs =>
    if c = '[' then
      match readItems classify f (skipWs cs) with
      | .ok (xs, r) => .ok (.list xs, r)
      | .error e => .error e
    else if c = '{' then
      match readEntries classify f .nil (skipWs cs) with
      | .ok (xs, r) => .ok (.dict xs, r)
      | .error e => .error e
    else if c = '"' ∨ c = '\'' then
      match readQuoted c cs with
      | .ok (s, r) => .ok (.string ⟨s⟩, r)
      | .error e => .error e
    else if isDigitC c ∨ ((c = '-' ∨ c = '+') ∧ headIsDigit cs) then
      readNumberValue (c :: cs)
    else if isRunChar c then
      .ok (classify ((c :: cs).takeWhile isRunChar),
        (c :: cs).dropWhile isRunChar)
    else .error .unexpectedCharacter
/-- List items after `[`, with leading whitespace already skipped:
elements separated by commas, a trailing comma allowed, closed by `]`. -/
def readItems (classify : List Char → ConfigValue) :
    ℕ → List Char → Except Pec (CVList × List Char)
  | 0, _ => .error .unexpectedEof
  | _+1, [] => .error .unexpectedEof
  | f+1, c :: cs =>
    if c = ']' then .ok (.nil, cs)
    else
      match readValue classify f (c :: cs) with
      | .ok (v, r) =>
        (match skipWs r with
         | ',' :: r2 =>
           (match readItems classify f (skipWs r2) with
            | .ok (xs, r3) => .ok (.cons v xs, r3)
            | .error e => .error e)
         | ']' :: r2 => .ok (.cons v .nil, r2)
         | [] => .error .unexpectedEof
         | _ => .error .unexpectedCharacter)
      | .error e => .error e
/-- Dictionary entries after `{`, with leading whitespace already skipped:
`key = value` or `key { ... }`, separated by commas, a trailing comma
allowed, closed by `}`.  Dotted keys expand through `dictInsert`. -/
def readEntries (classify : List Char → ConfigValue) :
    ℕ → CVDict → List Char → Except Pec (CVDict × List Char)
  | 0, _, _ => .error .unexpectedEof
  | _+1, _, [] => .error .unexpectedEof
  | f+1, acc, c :: cs =>
    if c = '}' then .ok (acc, cs)
    else
      match readKey (c :: cs) with
      | .ok (path, r) =>
        (match skipWs r with
         | '=' :: r2 =>
           (match readValue classify f (skipWs r2) with
            | .ok (v, r3) =>
              (match dictInsert acc path v with
               | .ok acc2 => contEntries classify f acc2 (skipWs r3)
               | .error e => .error e)
            | .error e => .error e)
         | '{' :: r2 =>
           (match readEntries classify f .nil (skipWs r2) with
            | .ok (sub, r3) =>
              (match dictInsert acc path (.dict sub) with
               | .ok acc2 => contEntries classify f acc2 (skipWs r3)
               | .error e => .error e)
            | .error e => .error e)
         | [] => .error .unexpectedEof
         | _ => .error .unexpectedCharacter)
      | .error e => .error e
/-- After one dictionary entry: a comma continues (or closes, for a
trailing comma), `}` closes. -/
def contEntries (classify : List Char → ConfigValue) :
    ℕ → CVDict → List Char → Except Pec (CVDict × List Char)
  | 0, _, _ => .error .unexpectedEof
  | _+1, _, [] => .error .unexpectedEof
  | f+1, acc, c :: cs =>
    if c = ',' then readEntries classify f acc (skipWs cs)
    else if c = '}' then .ok (acc, cs)
    else .error .unexpectedCharacter
end

/-- Modelled from the spec: the unquoted-run classifier of the strict
grammar: the case-sensitive keywords `true` and `false` are booleans, any
other run is an unquoted string (§4.1). -/
def classifyStrict (run : List Char) : ConfigValue :=
  if run = "true".toList then .boolean true
  else if run = "false".toList then .boolean false
  else .string ⟨run⟩

/-- An unquoted-run classifier that additionally recognizes the canonical
spellings of `none`, non-finite reals and URIs.  This is a proof device
used to invert the canonical printer; it is not part of the modelled
program. -/
def classifyCanonical (run : List Char) : ConfigValue :=
  if run = "true".toList then .boolean true
  else if run = "false".toList then .boolean false
  else if run = "null".toList then .none
  else if run = "nan".toList then .real .nan
  else if run = "inf".toList then .real .posInf
  else if run = ['-', 'i', 'n', 'f'] then .real .negInf
  else if validUri ⟨run⟩ then .uri ⟨run⟩
  else .string ⟨run⟩

/-- Read one complete value and require that only trailing whitespace
remains (`trailing_character` otherwise).  The fuel `2 * length + 2`
suffices for every input the printer produces. -/
def readConfig (classify : List Char → ConfigValue) (cs : List Char) :
    Except Pec ConfigValue :=
  match readValue classify (2 * cs.length + 2) cs with
  | .ok (v, r) => if skipWs r = [] then .ok v else .error .trailingCharacter
  | .error e => .error e

/-- `config_value::parse`: skip leading whitespace (empty and blank input
is `unexpected_eof`); run the grammar; on success return the value; on
failure return the parser error verbatim when the first non-whitespace
character is `[`, `{`, `"`, `'` or a digit, and otherwise fall back to the
whole input as an unquoted string. -/
def ConfigValue.parse (s : String) : Except Pec ConfigValue :=
  match skipWs s.toList with
  | [] => .error .unexpectedEof
  | c :: cs =>
    match readConfig classifyStrict (c :: cs) with
    | .ok v => .ok v
    | .error e =>
      if c = '[' ∨ c = '{' ∨ c = '"' ∨ c = '\'' then .error e
      else if isDigitC c then .error e
      else .ok (.string s)

/-- Modelled from the spec: `detail::parse` into a `config_value::list`
with `require_opening_char`, missing from `src/`: the whole string must be
a list of the grammar (so it must open with `[`). -/
def parse_list (s : String) : Option CVList :=
  match readConfig classifyStrict (skipWs s.toList) with
  | .ok (.list xs) => Option.some xs
  | _ => Option.none

/-- Modelled from the spec: `detail::parse` into a `config_value::dictionary`
with `require_opening_char`, missing from `src/`: the whole string must be
a dictionary of the grammar (so it must open with `{`). -/
def parse_dict (s : String) : Option CVDict :=
  match readConfig classifyStrict (skipWs s.toList) with
  | .ok (.dict xs) => Option.some xs
  | _ => Option.none

/-- One `[key, value]` pair per dictionary entry, in iteration order. -/
def dictToPairs : CVDict → CVList
  | .nil => .nil
  | .cons k v xs =>
    .cons (.list (.cons (.string k) (.cons v .nil))) (dictToPairs xs)

/-- `config_value::to_list`: identity on lists; dictionaries flatten to
key-value pairs; strings parse as a list first and as a dictionary second;
everything else is `sec::conversion_failed`. -/
def ConfigValue.to_list : ConfigValue → Except CErr CVList
  | .list xs => .ok xs
  | .dict xs => .ok (dictToPairs xs)
  | .string s =>
    match parse_list s with
    | Option.some xs => .ok xs
    | Option.none =>
      match parse_dict s with
      | Option.some d => .ok (dictToPairs d)
      | Option.none => .error .conversionFailed
  | _ => .error .conversionFailed

/-- `get_as<int>` on one element: `to_integer` plus the bounds check of the
32-bit `int` target. -/
def getAsInt32 (v : ConfigValue) : Option ℤ :=
  match v.to_integer with
  | .ok n =>
    if -2147483648 ≤ n ∧ n ≤ 2147483647 then Option.some n else Option.none
  | .error _ => Option.none

/-- `get_as<std::vector<int>>` applied to the elements of a list. -/
def cvListToInts : CVList → Option (List ℤ)
  | .nil => Option.some []
  | .cons x xs =>
    match getAsInt32 x, cvListToInts xs with
    | Option.some n, Option.some l => Option.some (n :: l)
    | _, _ => Option.none

/-- `get_as<std::vector<int>>` of a value: `to_list`, then each element. -/
def getAsIntList (v : ConfigValue) : Option (List ℤ) :=
  match v.to_list with
  | .ok xs => cvListToInts xs
  | .error _ => Option.none

/-- Element-wise `get_as<std::vector<int>>` over a list. -/
def cvListToIntLists : CVList → Option (List (List ℤ))
  | .nil => Option.some []
  | .cons x xs =>
    match getAsIntList x, cvListToIntLists xs with
    | Option.some l, Option.some ls => Option.some (l :: ls)
    | _, _ => Option.none

/-- `get_as<std::vector<std::vector<int>>>` of a value. -/
def getAsIntListList (v : ConfigValue) : Option (List (List ℤ)) :=
  match v.to_list with
  | .ok xs => cvListToIntLists xs
  | .error _ => Option.none

/-- Modelled from the spec: CLI parsing (`detail::parse_impl` /
`parse_cli`) with the nested-list target `std::vector<std::vector<int>>`,
missing from `src/`.  Following §4.2 and §9 ("a thin pre-pass that decides
whether to wrap the input in brackets") and the behavior pinned by the
in-repo test `parsing via parse_cli enables shortcut syntax for some
types`: parse the input as written and extract; if that fails, retry with
the input wrapped in one pair of brackets (the optional outermost
brackets).  Inner brackets are never supplied, so elements must be lists
themselves. -/
def parse_cli_lli (s : String) : Option (List (List ℤ)) :=
  match
    (match ConfigValue.parse s with
     | .ok v => getAsIntListList v
     | .error _ => Option.none) with
  | Option.some r => Option.some r
  | Option.none =>
    match ConfigValue.parse ("[" ++ s ++ "]") with
    | .ok v => getAsIntListList v
    | .error _ => Option.none

/-- Read a value with the canonical-run classifier and require only
trailing whitespace: the proof-device inverse of the canonical printer. -/
def readCanonical (cs : List Char) : Except Pec ConfigValue :=
  readConfig classifyCanonical cs

mutual
/-- Fuel sufficient for `readValue` on the printed form of a value. -/
def needValue : ConfigValue → ℕ
  | .list xs => 1 + needItems xs
  | .dict xs => 1 + needEntries xs
  | _ => 1
/-- Fuel sufficient for `readItems` on printed list items. -/
def needItems : CVList → ℕ
  | .nil => 1
  | .cons x xs => 1 + needValue x + needItems xs
/-- Fuel sufficient for `readEntries` on printed dictionary entries. -/
def needEntries : CVDict → ℕ
  | .nil => 1
  | .cons _ v xs => 2 + needValue v + needEntries xs
end

mutual
/-- The run classifier inverts the printed form of every run-printed leaf
in the tree (booleans, `none`, URIs and non-finite reals). -/
def classOkV (classify : List Char → ConfigValue) : ConfigValue → Prop
  | .none => classify "null".toList = .none
  | .boolean b => classify (if b then "true".toList else "false".toList) = .boolean b
  | .real .posInf => classify "inf".toList = .real .posInf
  | .real .negInf => classify ['-', 'i', 'n', 'f'] = .real .negInf
  | .real .nan => classify "nan".toList = .real .nan
  | .uri u => classify u.toList = .uri u
  | .list xs => classOkL classify xs
  | .dict xs => classOkD classify xs
  | _ => True
/-- Classifier inversion for every list element. -/
def classOkL (classify : List Char → ConfigValue) : CVList → Prop
  | .nil => True
  | .cons x xs => classOkV classify x ∧ classOkL classify xs
/-- Classifier inversion for every dictionary entry. -/
def classOkD (classify : List Char → ConfigValue) : CVDict → Prop
  | .nil => True
  | .cons _ v xs => classOkV classify v ∧ classOkD classify xs
end

/-- The printed form of a value is always followed by the end of the input
or by a separator (`,`, `]`, `}`) in every context the printer creates. -/
def delimOk : List Char → Prop
  | [] => True
  | c :: _ => c = ',' ∨ c = ']' ∨ c = '}'

/-- Concatenation of dictionaries. -/
def CVDict.cat : CVDict → CVDict → CVDict
  | .nil, ys => ys
  | .cons k v xs, ys => .cons k v (CVDict.cat xs ys)

/-- Head test for a predicate failing on the first character (or an empty
list). -/
def headNotP (p : Char → Bool) : List Char → Prop
  | [] => True
  | c :: _ => p c = false

/-- Guard on the characters that may follow a complete printed number:
nothing, or a character that starts no digit, letter or fraction. -/
def numGuard : List Char → Prop
  | [] => True
  | c :: _ => isDigitC c = false ∧ isAlphaC c = false ∧ c ≠ '.'

/-- Guard sufficient for the number body: the next character extends no
radix prefix, fraction or exponent. -/
def bodyGuard : List Char → Prop
  | [] => True
  | c :: _ => isDigitC c = false ∧ c ≠ 'x' ∧ c ≠ 'X' ∧ c ≠ 'b' ∧ c ≠ 'B' ∧
      c ≠ '.' ∧ c ≠ 'e' ∧ c ≠ 'E'

/-- Keys of the second dictionary are all fresh for the first. -/
def freshD (acc d : CVDict) : Prop :=
  ∀ s, dictHasKey d s = true → dictHasKey acc s = false

/-- Helper: `push` always makes the pushed element the last one. -/
theorem CVList.push_getLast : ∀ (ys : CVList) (x : ConfigValue),
    (ys.push x).getLast = Option.some x
  | .nil, x => rfl
  | .cons y .nil, x => rfl
  | .cons y (.cons z zs), x => by
    have h := CVList.push_getLast (.cons z zs) x
    simpa [CVList.push, CVList.getLast] using h

/-- C5: `to_boolean` succeeds exactly on a boolean source (identity) and on
the string sources `"true"` and `"false"`; every other source, including
the integers 0 and 1, the reals 0.0 and 1.0, and every other string,
yields `conversion_failed`. -/
theorem c5_to_boolean_exact :
    (∀ b, ConfigValue.to_boolean (.boolean b) = .ok b) ∧
    ConfigValue.to_boolean (.string "true") = .ok true ∧
    ConfigValue.to_boolean (.string "false") = .ok false ∧
    (∀ s : String, s ≠ "true" → s ≠ "false" →
      ConfigValue.to_boolean (.string s) = .error .conversionFailed) ∧
    ConfigValue.to_boolean (.integer 0) = .error .conversionFailed ∧
    ConfigValue.to_boolean (.integer 1) = .error .conversionFailed ∧
    ConfigValue.to_boolean (.real (.fin 0)) = .error .conversionFailed ∧
    ConfigValue.to_boolean (.real (.fin 1)) = .error .conversionFailed ∧
    (∀ v : ConfigValue, (∀ b, v ≠ .boolean b) → (∀ s, v ≠ .string s) →
      ConfigValue.to_boolean v = .error .conversionFailed) := by
  refine ⟨fun b => rfl, rfl, rfl, ?_, rfl, rfl, rfl, rfl, ?_⟩
  · intro s h1 h2
    simp [ConfigValue.to_boolean, h1, h2]
  · intro v hb hs
    cases v with
    | boolean b => exact absurd rfl (hb b)
    | string s => exact absurd rfl (hs s)
    | _ => rfl

/-- C5 witness. -/
theorem c5_witness :
    ConfigValue.to_boolean (.string "1") = .error .conversionFailed :=
  c5_to_boolean_exact.2.2.2.1 "1" (by decide) (by decide)

/-- C6: `convert_to_list` is the identity on lists, turns `none` into the
empty list and wraps any other value into a singleton list; `append`
applies `convert_to_list` and then pushes, so the appended element is the
last element of the resulting list. -/
theorem c6_convert_to_list_append :
    (∀ xs, ConfigValue.convert_to_list (.list xs) = .list xs) ∧
    ConfigValue.convert_to_list .none = .list .nil ∧
    (∀ v : ConfigValue, (∀ xs, v ≠ .list xs) → v ≠ .none →
      ConfigValue.convert_to_list v = .list (.cons v .nil)) ∧
    (∀ v x xs, ConfigValue.convert_to_list v = .list xs →
      ConfigValue.append v x = .list (xs.push x)) ∧
    (∀ v x, ∃ ys, ConfigValue.append v x = .list ys ∧
      ys.getLast = Option.some x) := by
  refine ⟨fun xs => rfl, rfl, ?_, ?_, ?_⟩
  · intro v hl hn
    cases v with
    | list xs => exact absurd rfl (hl xs)
    | none => exact absurd rfl hn
    | _ => rfl
  · intro v x xs h
    unfold ConfigValue.append
    rw [h]
  · intro v x
    cases v with
    | list xs => exact ⟨xs.push x, rfl, CVList.push_getLast xs x⟩
    | none => exact ⟨CVList.nil.push x, rfl, CVList.push_getLast .nil x⟩
    | _ => exact ⟨_, rfl, CVList.push_getLast _ x⟩

/-- C6 witness. -/
theorem c6_witness :
    ConfigValue.convert_to_list (.integer 42) = .list (.cons (.integer 42) .nil) :=
  c6_convert_to_list_append.2.2.1 (.integer 42) (fun xs h => by cases h)
    (fun h => by cases h)

/-- Helper: `isOk` on a success. -/
theorem exceptIsOk_ok {ε α : Type} (a : α) : (Except.ok a : Except ε α).isOk = true := rfl

/-- Helper: `isOk` on an error. -/
theorem exceptIsOk_error {ε α : Type} (e : ε) : (Except.error e : Except ε α).isOk = false := rfl

/-- C1 counterexample: the real value `2^63` (a representable double that
exceeds int64 max) is accepted by `to_integer`, contradicting the claimed
acceptance range `[int64 min, int64 max]`. -/
theorem c1_counterexample :
    ConfigValue.to_integer (.real (.fin ((9223372036854775808 : ℤ) : ℚ)))
      = .ok 9223372036854775808 ∧
    ¬(((9223372036854775808 : ℤ) : ℚ) ≤ (int64Max : ℚ)) := by
  constructor
  · rfl
  · rw [int64Max]
    decide

/-- C1 (amended): `to_integer` is the identity on an integer source; a real
source succeeds exactly when it is finite, integral, and within the int64
limits converted to double, i.e. in `[-2^63, 2^63]` (so exactly `2^63`,
which exceeds int64 max, is accepted rather than rejected), returning the
value as an integer for reals up to int64 max; a string source is parsed
as an integer first and, only if that fails, as a real to which the same
real rule applies; all other variants yield `conversion_failed`. -/
theorem c1_to_integer_amended :
    (∀ n, ConfigValue.to_integer (.integer n) = .ok n) ∧
    (∀ r : R64, (ConfigValue.to_integer (.real r)).isOk = true ↔
      ∃ q : ℚ, r = .fin q ∧ q.den = 1 ∧ int64MinAsReal ≤ q ∧ q ≤ int64MaxAsReal) ∧
    (∀ q : ℚ, q.den = 1 → int64MinAsReal ≤ q → q ≤ (int64Max : ℚ) →
      ConfigValue.to_integer (.real (.fin q)) = .ok q.num) ∧
    (∀ s n, parse_i64 s = Option.some n →
      ConfigValue.to_integer (.string s) = .ok n) ∧
    (∀ s (q : ℚ), parse_i64 s = Option.none → parse_real s = Option.some q →
      ConfigValue.to_integer (.string s) =
        (if q.den = 1 ∧ int64MinAsReal ≤ q ∧ q ≤ int64MaxAsReal
         then .ok q.num else .error .conversionFailed)) ∧
    (∀ s, parse_i64 s = Option.none → parse_real s = Option.none →
      ConfigValue.to_integer (.string s) = .error .conversionFailed) ∧
    ConfigValue.to_integer .none = .error .conversionFailed ∧
    (∀ b, ConfigValue.to_integer (.boolean b) = .error .conversionFailed) ∧
    (∀ t, ConfigValue.to_integer (.timespan t) = .error .conversionFailed) ∧
    (∀ u, ConfigValue.to_integer (.uri u) = .error .conversionFailed) ∧
    (∀ xs, ConfigValue.to_integer (.list xs) = .error .conversionFailed) ∧
    (∀ xs, ConfigValue.to_integer (.dict xs) = .error .conversionFailed) := by
  refine ⟨fun n => rfl, ?_, ?_, ?_, ?_, ?_, rfl, fun b => rfl, fun t => rfl,
    fun u => rfl, fun xs => rfl, fun xs => rfl⟩
  · intro r
    cases r with
    | fin q =>
      by_cases h : q.den = 1 ∧ int64MinAsReal ≤ q ∧ q ≤ int64MaxAsReal
      · simp only [ConfigValue.to_integer, realToInteger, if_pos h, exceptIsOk_ok]
        constructor
        · intro _
          exact ⟨q, rfl, h⟩
        · intro _
          trivial
      · simp only [ConfigValue.to_integer, realToInteger, if_neg h, exceptIsOk_error]
        constructor
        · intro hk
          cases hk
        · rintro ⟨q2, hq2, hrest⟩
          cases hq2
          exact absurd hrest h
    | posInf =>
      simp only [ConfigValue.to_integer, realToInteger, exceptIsOk_error]
      constructor
      · intro hk
        cases hk
      · rintro ⟨q2, hq2, -⟩
        cases hq2
    | negInf =>
      simp only [ConfigValue.to_integer, realToInteger, exceptIsOk_error]
      constructor
      · intro hk
        cases hk
      · rintro ⟨q2, hq2, -⟩
        cases hq2
    | nan =>
      simp only [ConfigValue.to_integer, realToInteger, exceptIsOk_error]
      constructor
      · intro hk
        cases hk
      · rintro ⟨q2, hq2, -⟩
        cases hq2
  · intro q h1 h2 h3
    have h4 : q ≤ int64MaxAsReal := by
      refine le_trans h3 ?_
      rw [int64Max, int64MaxAsReal]
      norm_num
    simp [ConfigValue.to_integer, realToInteger, h1, h2, h4]
  · intro s n h
    simp [ConfigValue.to_integer, h]
  · intro s q h1 h2
    simp [ConfigValue.to_integer, realToInteger, h1, h2]
  · intro s h1 h2
    simp [ConfigValue.to_integer, h1, h2]

/-- C1 witness. -/
theorem c1_witness :
    ConfigValue.to_integer (.real (.fin (5 : ℚ))) = .ok 5 := by
  have h := c1_to_integer_amended.2.2.1 (5 : ℚ) (by decide) (by decide)
    (by rw [int64Max]; norm_num)
  simpa using h

/-- C10: for a finite integral real source, the range check of
`to_integer` compares against the int64 limits converted to double,
accepting exactly the values in `[-2^63, 2^63]`; in particular the real
value `2^63`, which exceeds int64 max, passes the check and is not
rejected with `conversion_failed`. -/
theorem c10_real_range_check :
    (∀ q : ℚ, q.den = 1 →
      ((ConfigValue.to_integer (.real (.fin q))).isOk = true ↔
        int64MinAsReal ≤ q ∧ q ≤ int64MaxAsReal)) ∧
    (int64Max : ℚ) < int64MaxAsReal ∧
    ConfigValue.to_integer (.real (.fin ((9223372036854775808 : ℤ) : ℚ)))
      ≠ .error .conversionFailed := by
  refine ⟨?_, ?_, ?_⟩
  · intro q hden
    by_cases h : int64MinAsReal ≤ q ∧ q ≤ int64MaxAsReal
    · have hcond : q.den = 1 ∧ int64MinAsReal ≤ q ∧ q ≤ int64MaxAsReal :=
        ⟨hden, h⟩
      simp only [ConfigValue.to_integer, realToInteger, if_pos hcond,
        exceptIsOk_ok]
      constructor
      · intro _
        exact h
      · intro _
        trivial
    · have hcond : ¬(q.den = 1 ∧ int64MinAsReal ≤ q ∧ q ≤ int64MaxAsReal) := by
        rintro ⟨-, h2⟩
        exact h h2
      simp only [ConfigValue.to_integer, realToInteger, if_neg hcond,
        exceptIsOk_error]
      constructor
      · intro hk
        cases hk
      · intro hp
        exact absurd hp h
  · rw [int64Max, int64MaxAsReal]
    norm_num
  · intro h
    cases h

/-- C10 witness. -/
theorem c10_witness :
    (ConfigValue.to_integer (.real (.fin (7 : ℚ)))).isOk = true :=
  (c10_real_range_check.1 (7 : ℚ) (by decide)).mpr ⟨by decide, by decide⟩

/-- Helper: unfolding `parse` when the input has a first non-whitespace
character. -/
theorem parse_cons (s : String) (c : Char) (cs : List Char)
    (h : skipWs s.toList = c :: cs) :
    ConfigValue.parse s =
      (match readConfig classifyStrict (c :: cs) with
       | .ok v => .ok v
       | .error e =>
         if c = '[' ∨ c = '{' ∨ c = '"' ∨ c = '\'' then .error e
         else if isDigitC c = true then .error e
         else .ok (.string s)) := by
  unfold ConfigValue.parse
  rw [h]

/-- C2: top-level `parse` returns `unexpected_eof` on empty (or blank)
input; when value-parsing fails and the first non-whitespace character is
`[`, `{`, `"`, `'` or a decimal digit, the parser error is returned
verbatim; when value-parsing fails on any other first character, `parse`
succeeds with the entire input as a string value. -/
theorem c2_parse_toplevel :
    ConfigValue.parse "" = .error .unexpectedEof ∧
    (∀ s : String, skipWs s.toList = [] →
      ConfigValue.parse s = .error .unexpectedEof) ∧
    (∀ (s : String) c cs e, skipWs s.toList = c :: cs →
      readConfig classifyStrict (c :: cs) = .error e →
      (c = '[' ∨ c = '{' ∨ c = '"' ∨ c = '\'' ∨ isDigitC c = true) →
      ConfigValue.parse s = .error e) ∧
    (∀ (s : String) c cs e, skipWs s.toList = c :: cs →
      readConfig classifyStrict (c :: cs) = .error e →
      ¬(c = '[' ∨ c = '{' ∨ c = '"' ∨ c = '\'' ∨ isDigitC c = true) →
      ConfigValue.parse s = .ok (.string s)) := by
  refine ⟨rfl, ?_, ?_, ?_⟩
  · intro s h
    unfold ConfigValue.parse
    rw [h]
  · intro s c cs e h1 h2 h3
    rw [parse_cons s c cs h1, h2]
    rcases h3 with h | h | h | h | h
    · simp [h]
    · simp [h]
    · simp [h]
    · simp [h]
    · by_cases hb : c = '[' ∨ c = '{' ∨ c = '"' ∨ c = '\''
      · simp [hb]
      · push_neg at hb
        simp [hb.1, hb.2.1, hb.2.2.1, hb.2.2.2, h]
  · intro s c cs e h1 h2 h3
    push_neg at h3
    rw [parse_cons s c cs h1, h2]
    simp [h3.1, h3.2.1, h3.2.2.1, h3.2.2.2.1, h3.2.2.2.2]

/-- C2 witness. -/
theorem c2_witness : ConfigValue.parse "abc def" = .ok (.string "abc def") :=
  c2_parse_toplevel.2.2.2 "abc def" 'a' "bc def".toList .trailingCharacter
    rfl rfl (by decide)

/-- Helper: the strict classifier never produces a list or dictionary. -/
theorem classifyStrict_shape (run : List Char) :
    (∀ xs, classifyStrict run ≠ .list xs) ∧
    (∀ xs, classifyStrict run ≠ .dict xs) := by
  unfold classifyStrict
  constructor <;> intro xs <;> split <;> (try split) <;> simp

/-- Helper: a scanned number is an integer, real or timespan. -/
theorem numberToValue_ctor (l : NumLit) (unit : List Char) (v : ConfigValue)
    (h : numberToValue l unit = .ok v) :
    (∃ n, v = .integer n) ∨ (∃ r, v = .real r) ∨ (∃ t, v = .timespan t) := by
  unfold numberToValue at h
  split at h
  · split at h
    · cases h
      exact Or.inr (Or.inl ⟨_, rfl⟩)
    · split at h
      · cases h
        exact Or.inl ⟨_, rfl⟩
      · cases h
  · split at h
    · split at h
      · split at h
        · cases h
          exact Or.inr (Or.inr ⟨_, rfl⟩)
        · cases h
      · cases h
    · cases h

/-- Helper: `readNumberValue` never returns a list or dictionary. -/
theorem readNumberValue_ctor (cs : List Char) (v : ConfigValue) (r : List Char)
    (h : readNumberValue cs = .ok (v, r)) :
    (∃ n, v = .integer n) ∨ (∃ r2, v = .real r2) ∨ (∃ t, v = .timespan t) := by
  unfold readNumberValue at h
  split at h
  · split at h
    · cases h
      exact numberToValue_ctor _ _ _ (by assumption)
    · cases h
  · cases h

/-- Helper: with the strict classifier, a parsed list opens with `[` and a
parsed dictionary opens with `{`. -/
theorem readValue_strict_bracket (f : ℕ) (cs : List Char) (v : ConfigValue)
    (r : List Char) (h : readValue classifyStrict f cs = .ok (v, r)) :
    (∀ xs, v = .list xs → ∃ t, cs = '[' :: t) ∧
    (∀ xs, v = .dict xs → ∃ t, cs = '{' :: t) := by
  match f, cs with
  | 0, cs => cases h
  | f+1, [] => cases h
  | f+1, c :: t =>
    rw [readValue] at h
    by_cases h1 : c = '['
    · rw [if_pos h1] at h
      rcases h2 : readItems classifyStrict f (skipWs t) with e | ⟨xs2, r2⟩ <;>
        rw [h2] at h
      · cases h
      · cases h
        subst h1
        constructor
        · intro xs hxs
          exact ⟨t, rfl⟩
        · intro xs hxs
          cases hxs
    · rw [if_neg h1] at h
      by_cases h2 : c = '{'
      · rw [if_pos h2] at h
        rcases h3 : readEntries classifyStrict f .nil (skipWs t) with e | ⟨xs2, r2⟩ <;>
          rw [h3] at h
        · cases h
        · cases h
          subst h2
          constructor
          · intro xs hxs
            cases hxs
          · intro xs hxs
            exact ⟨t, rfl⟩
      · rw [if_neg h2] at h
        by_cases h3 : c = '"' ∨ c = '\''
        · rw [if_pos h3] at h
          rcases h4 : readQuoted c t with e | ⟨s2, r2⟩ <;> rw [h4] at h
          · cases h
          · cases h
            constructor
            · intro xs hxs
              cases hxs
            · intro xs hxs
              cases hxs
        · rw [if_neg h3] at h
          by_cases h4 : isDigitC c = true ∨ ((c = '-' ∨ c = '+') ∧ headIsDigit t = true)
          · rw [if_pos h4] at h
            have hc := readNumberValue_ctor (c :: t) v r h
            constructor
            · intro xs hxs
              subst hxs
              rcases hc with ⟨n, hn⟩ | ⟨r2, hn⟩ | ⟨t2, hn⟩ <;> cases hn
            · intro xs hxs
              subst hxs
              rcases hc with ⟨n, hn⟩ | ⟨r2, hn⟩ | ⟨t2, hn⟩ <;> cases hn
          · rw [if_neg h4] at h
            by_cases h5 : isRunChar c = true
            · rw [if_pos h5] at h
              cases h
              constructor
              · intro xs hxs
                exact absurd hxs ((classifyStrict_shape _).1 xs)
              · intro xs hxs
                exact absurd hxs ((classifyStrict_shape _).2 xs)
            · rw [if_neg h5] at h
              cases h

/-- Helper: `parse_list` succeeds only on input whose first non-whitespace
character is `[`. -/
theorem parse_list_opening (s : String) (xs : CVList)
    (h : parse_list s = Option.some xs) :
    ∃ t, skipWs s.toList = '[' :: t := by
  unfold parse_list readConfig at h
  rcases h2 : readValue classifyStrict (2 * (skipWs s.toList).length + 2)
      (skipWs s.toList) with e | ⟨v, r⟩
  · rw [h2] at h
    cases h
  · have h3 : (match (if skipWs r = [] then (Except.ok v : Except Pec ConfigValue)
        else Except.error Pec.trailingCharacter) with
      | Except.ok (ConfigValue.list xs) => Option.some xs
      | _ => Option.none) = Option.some xs := by
      rw [h2] at h
      exact h
    by_cases hr : skipWs r = []
    · rw [if_pos hr] at h3
      rcases v with - | n | b | r2 | t2 | u2 | s2 | xs2 | d2 <;>
        first
          | exact (readValue_strict_bracket _ _ _ _ h2).1 _ rfl
          | cases h3
    · rw [if_neg hr] at h3
      cases h3

/-- Helper: `parse_dict` succeeds only on input whose first non-whitespace
character is `{`. -/
theorem parse_dict_opening (s : String) (xs : CVDict)
    (h : parse_dict s = Option.some xs) :
    ∃ t, skipWs s.toList = '{' :: t := by
  unfold parse_dict readConfig at h
  rcases h2 : readValue classifyStrict (2 * (skipWs s.toList).length + 2)
      (skipWs s.toList) with e | ⟨v, r⟩
  · rw [h2] at h
    cases h
  · have h3 : (match (if skipWs r = [] then (Except.ok v : Except Pec ConfigValue)
        else Except.error Pec.trailingCharacter) with
      | Except.ok (ConfigValue.dict xs) => Option.some xs
      | _ => Option.none) = Option.some xs := by
      rw [h2] at h
      exact h
    by_cases hr : skipWs r = []
    · rw [if_pos hr] at h3
      rcases v with - | n | b | r2 | t2 | u2 | s2 | xs2 | d2 <;>
        first
          | exact (readValue_strict_bracket _ _ _ _ h2).2 _ rfl
          | cases h3
    · rw [if_neg hr] at h3
      cases h3

/-- C7: `to_list` flattens a dictionary into two-element `[key, value]`
lists in iteration order; a string source is parsed as a list first
(requiring an opening `[`) and as a dictionary second (requiring an
opening `{`), converted by the same rule; when both parses fail, or the
source is none, boolean, integer, real, timespan or uri, the result is
`conversion_failed`. -/
theorem c7_to_list :
    (∀ xs, ConfigValue.to_list (.dict xs) = .ok (dictToPairs xs)) ∧
    (∀ k v xs, dictToPairs (.cons k v xs)
      = .cons (.list (.cons (.string k) (.cons v .nil))) (dictToPairs xs)) ∧
    (∀ xs, ConfigValue.to_list (.list xs) = .ok xs) ∧
    (∀ (s : String) xs, parse_list s = Option.some xs →
      ConfigValue.to_list (.string s) = .ok xs) ∧
    (∀ (s : String) xs, parse_list s = Option.some xs →
      ∃ t, skipWs s.toList = '[' :: t) ∧
    (∀ (s : String) d, parse_list s = Option.none → parse_dict s = Option.some d →
      ConfigValue.to_list (.string s) = .ok (dictToPairs d)) ∧
    (∀ (s : String) d, parse_dict s = Option.some d →
      ∃ t, skipWs s.toList = '{' :: t) ∧
    (∀ s : String, parse_list s = Option.none → parse_dict s = Option.none →
      ConfigValue.to_list (.string s) = .error .conversionFailed) ∧
    ConfigValue.to_list .none = .error .conversionFailed ∧
    (∀ b, ConfigValue.to_list (.boolean b) = .error .conversionFailed) ∧
    (∀ n, ConfigValue.to_list (.integer n) = .error .conversionFailed) ∧
    (∀ r, ConfigValue.to_list (.real r) = .error .conversionFailed) ∧
    (∀ t, ConfigValue.to_list (.timespan t) = .error .conversionFailed) ∧
    (∀ u, ConfigValue.to_list (.uri u) = .error .conversionFailed) := by
  refine ⟨fun xs => rfl, fun k v xs => rfl, fun xs => rfl, ?_, parse_list_opening,
    ?_, parse_dict_opening, ?_, rfl, fun b => rfl, fun n => rfl, fun r => rfl,
    fun t => rfl, fun u => rfl⟩
  · intro s xs h
    simp [ConfigValue.to_list, h]
  · intro s d h1 h2
    simp [ConfigValue.to_list, h1, h2]
  · intro s h1 h2
    simp [ConfigValue.to_list, h1, h2]

/-- C7 witness. -/
theorem c7_witness :
    ConfigValue.to_list (.string "[1, 2]")
      = .ok (.cons (.integer 1) (.cons (.integer 2) .nil)) :=
  c7_to_list.2.2.2.1 "[1, 2]" (.cons (.integer 1) (.cons (.integer 2) .nil)) rfl

/-- C8 counterexample: in CLI mode with a list-of-list-of-int target, the
bracket-free input `1,2,3` is rejected rather than read as `[[1,2,3]]`;
the in-repo test pins the same failures for `1` and `1, 2`. -/
theorem c8_counterexample :
    parse_cli_lli "1,2,3" = Option.none ∧
    parse_cli_lli "1" = Option.none ∧
    parse_cli_lli "1, 2" = Option.none := ⟨rfl, rfl, rfl⟩

/-- C8 (amended): in CLI mode with a nested-list target, inner brackets
are mandatory; an input with one bracket pair and no nested bracket is
treated as a single inner list (the outermost brackets being optional), so
`[1,2,3]` yields `[[1,2,3]]`, while the bracket-free `1,2,3` fails. -/
theorem c8_nested_list_cli :
    parse_cli_lli "[1,2,3]" = Option.some [[1, 2, 3]] ∧
    parse_cli_lli "[1, 2, 3, ]" = Option.some [[1, 2, 3]] ∧
    parse_cli_lli "[1,2],[3]" = Option.some [[1, 2], [3]] ∧
    parse_cli_lli "[[1, 2, 3]]" = Option.some [[1, 2, 3]] := ⟨rfl, rfl, rfl, rfl⟩

/-- C9 counterexample: on a string value the member `to_string` returns
the stored characters unchanged while the free `to_string` quotes them. -/
theorem c9_counterexample :
    ConfigValue.to_string (.string "abc") = "abc" ∧
    to_string (.string "abc") = "\"abc\"" ∧
    ("abc" : String) ≠ "\"abc\"" := ⟨rfl, rfl, by decide⟩

/-- C9 (amended): the member `to_string` agrees with the free `to_string`
on every variant except string, where the member returns the stored string
unquoted. -/
theorem c9_member_free_agree :
    ∀ v : ConfigValue, (∀ s, v ≠ .string s) →
      ConfigValue.to_string v = to_string v := by
  intro v h
  cases v with
  | string s => exact absurd rfl (h s)
  | none => rfl
  | integer n => rfl
  | boolean b => rfl
  | real r => rfl
  | timespan t => rfl
  | uri u => rfl
  | list xs => rfl
  | dict xs => rfl

/-- C9 witness. -/
theorem c9_witness :
    ConfigValue.to_string (.integer 42) = to_string (.integer 42) :=
  c9_member_free_agree (.integer 42) (fun s h => by cases h)

/-- Splitting `takeWhile`/`dropWhile` at an append boundary. -/
theorem takeWhile_dropWhile_append (p : Char → Bool) :
    ∀ (l rest : List Char), (∀ c ∈ l, p c = true) → headNotP p rest →
      (l ++ rest).takeWhile p = l ∧ (l ++ rest).dropWhile p = rest := by
  intro l
  induction l with
  | nil =>
    intro rest h1 h2
    constructor
    · match rest, h2 with
      | [], _ => rfl
      | c :: t, h2 =>
        have h3 : p c = false := h2
        simp [List.takeWhile, h3]
    · match rest, h2 with
      | [], _ => rfl
      | c :: t, h2 =>
        have h3 : p c = false := h2
        simp [List.dropWhile, h3]
  | cons c l ih =>
    intro rest h1 h2
    have hc : p c = true := h1 c (List.mem_cons_self c l)
    have hl : ∀ c2 ∈ l, p c2 = true := fun c2 hm => h1 c2 (List.mem_cons_of_mem c hm)
    have := ih rest hl h2
    constructor
    · simp [List.takeWhile, hc, this.1]
    · simp [List.dropWhile, hc, this.2]

/-- `skipWs` keeps a list whose head is not whitespace. -/
theorem skipWs_not_ws : ∀ (cs : List Char), headNotP isWsChar cs → skipWs cs = cs := by
  intro cs h
  match cs, h with
  | [], _ => rfl
  | c :: t, h =>
    have h3 : isWsChar c = false := h
    simp [skipWs, List.dropWhile, h3]

/-- `skipWs` discards a leading space. -/
theorem skipWs_space (t : List Char) : skipWs (' ' :: t) = skipWs t := by
  simp [skipWs, List.dropWhile]
  rfl

/-- Facts about digit characters below ten. -/
theorem digitCharOf_spec : ∀ k, k < 10 →
    isDigitC (digitCharOf k) = true ∧ digitVal (digitCharOf k) = k ∧
      (1 ≤ k → digitCharOf k ≠ '0') := by
  intro k hk
  interval_cases k <;> exact ⟨by decide, by decide, fun h1 => by first | omega | decide⟩

/-- Fuel accumulation: the accumulator is just appended. -/
theorem natCharsAux_acc : ∀ (f n : ℕ) (acc : List Char), n < f →
    natCharsAux f n acc = natCharsAux f n [] ++ acc := by
  intro f
  induction f with
  | zero =>
    intro n acc h
    omega
  | succ f ih =>
    intro n acc h
    by_cases h10 : n < 10
    · simp [natCharsAux, h10]
    · have hlt : n / 10 < f := by
        have := Nat.div_lt_self (by omega : 0 < n) (by omega : 1 < 10)
        omega
      rw [natCharsAux, natCharsAux, if_neg h10, if_neg h10,
        ih (n / 10) (digitCharOf (n % 10) :: acc) hlt,
        ih (n / 10) [digitCharOf (n % 10)] hlt]
      simp

/-- Fuel irrelevance for the decimal printer. -/
theorem natCharsAux_fuel : ∀ (f f' n : ℕ), n < f → n < f' →
    natCharsAux f n [] = natCharsAux f' n [] := by
  intro f
  induction f with
  | zero =>
    intro f' n h
    omega
  | succ f ih =>
    intro f' n h1 h2
    match f', h2 with
    | f' + 1, h2 =>
      by_cases h10 : n < 10
      · simp [natCharsAux, h10]
      · have hlt : n / 10 < n := Nat.div_lt_self (by omega) (by omega)
        rw [natCharsAux, natCharsAux, if_neg h10, if_neg h10,
          natCharsAux_acc f (n / 10) _ (by omega),
          natCharsAux_acc f' (n / 10) _ (by omega), ih f' (n / 10) (by omega) (by omega)]

/-- Small numbers print as a single digit. -/
theorem natChars_lt10 (n : ℕ) (h : n < 10) : natChars n = [digitCharOf n] := by
  simp [natChars, natCharsAux, h]

/-- Larger numbers print recursively. -/
theorem natChars_rec (n : ℕ) (h : 10 ≤ n) :
    natChars n = natChars (n / 10) ++ [digitCharOf (n % 10)] := by
  have hlt : n / 10 < n := Nat.div_lt_self (by omega) (by omega)
  rw [natChars, natChars, natCharsAux, if_neg (by omega),
    natCharsAux_acc n (n / 10) _ (by omega),
    natCharsAux_fuel n (n / 10 + 1) (n / 10) (by omega) (by omega)]

/-- The folded decimal value with an accumulator. -/
theorem decValue_acc : ∀ (l : List Char) (a : ℕ),
    l.foldl (fun a c => 10 * a + digitVal c) a = a * 10 ^ l.length + decValue l := by
  intro l
  induction l with
  | nil =>
    intro a
    simp [decValue]
  | cons c t ih =>
    intro a
    calc List.foldl (fun a c => 10 * a + digitVal c) a (c :: t)
        = List.foldl (fun a c => 10 * a + digitVal c) (10 * a + digitVal c) t := rfl
      _ = (10 * a + digitVal c) * 10 ^ t.length + decValue t := ih _
      _ = a * 10 ^ (c :: t).length + decValue (c :: t) := by
          have h2 : decValue (c :: t)
              = (10 * 0 + digitVal c) * 10 ^ t.length + decValue t :=
            ih (10 * 0 + digitVal c)
          rw [h2, List.length_cons, pow_succ]
          ring

/-- The decimal value of an appended digit. -/
theorem decValue_append_digit (l : List Char) (c : Char) :
    decValue (l ++ [c]) = 10 * decValue l + digitVal c := by
  rw [decValue, List.foldl_append, ← decValue]
  simp [decValue_acc [c] (decValue l), decValue]

/-- The decimal printer produces digits, is nonempty, starts with a
nonzero digit for positive numbers, and folds back to its value. -/
theorem natChars_spec : ∀ n : ℕ,
    (∀ c ∈ natChars n, isDigitC c = true) ∧
    (∃ c t, natChars n = c :: t ∧ isDigitC c = true ∧ (1 ≤ n → c ≠ '0')) ∧
    decValue (natChars n) = n := by
  intro n
  induction n using Nat.strong_induction_on with
  | _ n ih =>
    by_cases h10 : n < 10
    · rw [natChars_lt10 n h10]
      obtain ⟨hd, hv, hz⟩ := digitCharOf_spec n h10
      refine ⟨?_, ⟨digitCharOf n, [], rfl, hd, hz⟩, ?_⟩
      · intro c hc
        simp at hc
        rw [hc]
        exact hd
      · simp [decValue, hv]
    · have hlt : n / 10 < n := Nat.div_lt_self (by omega) (by omega)
      obtain ⟨ihd, ⟨c, t, hct, hcd, hcz⟩, ihv⟩ := ih (n / 10) hlt
      obtain ⟨hd2, hv2, -⟩ := digitCharOf_spec (n % 10) (Nat.mod_lt n (by omega))
      rw [natChars_rec n (by omega)]
      refine ⟨?_, ⟨c, t ++ [digitCharOf (n % 10)], by rw [hct]; rfl, hcd, ?_⟩, ?_⟩
      · intro c2 hc2
        rcases List.mem_append.mp hc2 with h | h
        · exact ihd c2 h
        · simp at h
          rw [h]
          exact hd2
      · intro _
        exact hcz (by omega)
      · rw [decValue_append_digit, ihv, hv2]
        omega

/-- `padDigits` produces exactly `k` digits folding back to its value. -/
theorem padDigits_spec : ∀ (k r : ℕ), r < 10 ^ k →
    (∀ c ∈ padDigits k r, isDigitC c = true) ∧
    (padDigits k r).length = k ∧ decValue (padDigits k r) = r := by
  intro k
  induction k with
  | zero =>
    intro r h
    simp [padDigits, decValue]
    omega
  | succ k ih =>
    intro r h
    have hdiv : r / 10 ^ k < 10 := by
      apply Nat.div_lt_of_lt_mul
      calc r < 10 ^ (k + 1) := h
      _ = 10 ^ k * 10 := by ring
    have hmod : r % 10 ^ k < 10 ^ k := Nat.mod_lt r (pow_pos (by omega : (0:ℕ) < 10) k)
    obtain ⟨ihd, ihl, ihv⟩ := ih (r % 10 ^ k) hmod
    obtain ⟨hd, hv, -⟩ := digitCharOf_spec (r / 10 ^ k) hdiv
    refine ⟨?_, ?_, ?_⟩
    · intro c hc
      rw [padDigits] at hc
      rcases List.mem_cons.mp hc with h2 | h2
      · rw [h2]
        exact hd
      · exact ihd c h2
    · rw [padDigits]
      simp [ihl]
    · have h3 : decValue (digitCharOf (r / 10 ^ k) :: padDigits k (r % 10 ^ k))
          = (10 * 0 + digitVal (digitCharOf (r / 10 ^ k)))
              * 10 ^ (padDigits k (r % 10 ^ k)).length
            + decValue (padDigits k (r % 10 ^ k)) :=
        decValue_acc (padDigits k (r % 10 ^ k)) _
      rw [padDigits, h3, ihl, ihv, hv]
      have hdm := Nat.div_add_mod r (10 ^ k)
      ring_nf
      ring_nf at hdm
      omega

/-- A separator satisfies the strong number guard. -/
theorem delimOk_numGuard : ∀ rest, delimOk rest → numGuard rest := by
  intro rest h
  match rest, h with
  | [], _ => trivial
  | c :: t, h =>
    rcases h with h | h | h <;> subst h <;> exact ⟨by decide, by decide, by decide⟩

/-- The strong guard implies the body guard. -/
theorem numGuard_bodyGuard : ∀ rest, numGuard rest → bodyGuard rest := by
  intro rest h
  match rest, h with
  | [], _ => trivial
  | c :: t, h =>
    obtain ⟨h1, h2, h3⟩ := h
    refine ⟨h1, ?_, ?_, ?_, ?_, h3, ?_, ?_⟩ <;>
      (intro he; subst he; exact absurd h2 (by decide))

/-- The strong guard blocks a leading digit. -/
theorem numGuard_headNotDigit : ∀ rest, numGuard rest → headNotP isDigitC rest := by
  intro rest h
  match rest, h with
  | [], _ => trivial
  | c :: t, h => exact h.1

/-- `readExpOpt` is the identity wrap when no exponent follows. -/
theorem readExpOpt_none (neg : Bool) (n0 k : ℕ) (isR : Bool) :
    ∀ rest, bodyGuard rest →
      readExpOpt neg n0 k isR rest = .ok (⟨neg, n0, 10 ^ k, isR⟩, rest) := by
  intro rest h
  match rest, h with
  | [], _ => rfl
  | c :: t, h =>
    rw [readExpOpt, if_neg]
    rintro (he | he) <;> subst he
    · exact absurd rfl h.2.2.2.2.2.2.1
    · exact absurd rfl h.2.2.2.2.2.2.2

/-- `readDecTail` with no fraction or exponent to scan. -/
theorem readDecTail_plain (neg : Bool) (ds : List Char) :
    ∀ rest, bodyGuard rest →
      readDecTail neg ds rest = .ok (⟨neg, decValue ds, 1, false⟩, rest) := by
  intro rest h
  have h10 : (10:ℕ) ^ 0 = 1 := pow_zero 10
  match rest, h with
  | [], _ =>
    rw [readDecTail, readExpOpt_none neg _ 0 false [] trivial, h10]
  | c :: t, h =>
    rw [readDecTail, if_neg h.2.2.2.2.2.1,
      readExpOpt_none neg _ 0 false (c :: t) h, h10]

/-- `readDecTail` on a printed fraction. -/
theorem readDecTail_frac (neg : Bool) (ds : List Char) (k F : ℕ) (hF : F < 10 ^ k) :
    ∀ rest, numGuard rest →
      readDecTail neg ds ('.' :: (padDigits k F ++ rest))
        = .ok (⟨neg, decValue ds * 10 ^ k + F, 10 ^ k, true⟩, rest) := by
  intro rest hg
  obtain ⟨hdigs, hlen, hval⟩ := padDigits_spec k F hF
  obtain ⟨ht, hd⟩ := takeWhile_dropWhile_append isDigitC (padDigits k F) rest hdigs
    (numGuard_headNotDigit rest hg)
  rw [readDecTail, if_pos rfl, ht, hd, hlen, hval,
    readExpOpt_none neg _ k true rest (numGuard_bodyGuard rest hg)]

/-- The decimal printer never starts with a sign character. -/
theorem natChars_head_not_sign (n : ℕ) :
    ∃ c t, natChars n = c :: t ∧ c ≠ '-' ∧ c ≠ '+' ∧ isDigitC c = true := by
  obtain ⟨-, ⟨c, t, hct, hcd, -⟩, -⟩ := natChars_spec n
  refine ⟨c, t, hct, ?_, ?_, hcd⟩ <;> (intro he; subst he; exact absurd hcd (by decide))

/-- The number body reads back a printed natural. -/
theorem readNumberBody_natChars (neg : Bool) (n : ℕ) :
    ∀ rest, bodyGuard rest →
      readNumberBody neg (natChars n ++ rest) = .ok (⟨neg, n, 1, false⟩, rest) := by
  intro rest hg
  obtain ⟨hdig, ⟨c, t, hct, hcdig, hcz⟩, hval⟩ := natChars_spec n
  by_cases hn : n = 0
  · subst hn
    have h0 : natChars 0 = ['0'] := rfl
    rw [h0]
    match rest, hg with
    | [], _ => rfl
    | c2 :: t2, hg =>
      obtain ⟨g1, g2, g3, g4, g5, g6, g7, g8⟩ := hg
      rw [List.cons_append, List.nil_append]
      simp [readNumberBody, g1, g2, g3, g4, g5, g6, g7, g8]
  · have hd0 : c ≠ '0' := hcz (by omega)
    obtain ⟨ht, hd⟩ := takeWhile_dropWhile_append isDigitC (natChars n) rest hdig
      (by
        match rest, hg with
        | [], _ => trivial
        | c2 :: t2, hg => exact hg.1)
    rw [hct] at ht hd ⊢
    rw [List.cons_append]
    simp only [readNumberBody]
    rw [if_neg hd0, if_pos hcdig, ← List.cons_append, ht, hd, ← hct,
      readDecTail_plain neg _ rest hg, hval]

/-- `readNumber` after a minus sign. -/
theorem readNumber_minus (cs : List Char) :
    readNumber ('-' :: cs) = readNumberBody true cs := by
  rw [readNumber, if_pos rfl]

/-- `readNumber` on an unsigned digit-led input. -/
theorem readNumber_unsigned (c : Char) (t : List Char) (h1 : c ≠ '-') (h2 : c ≠ '+') :
    readNumber (c :: t) = readNumberBody false (c :: t) := by
  rw [readNumber, if_neg h1, if_neg h2]

/-- `findPow10` only answers exponents whose power the denominator
divides. -/
theorem findPow10_spec : ∀ (f den k0 k : ℕ), findPow10 f den k0 = Option.some k →
    den ∣ 10 ^ k := by
  intro f
  induction f with
  | zero =>
    intro den k0 k h
    cases h
  | succ f ih =>
    intro den k0 k h
    rw [findPow10] at h
    split at h
    · cases h
      assumption
    · exact ih den (k0 + 1) k h

/-- Exact division through a common factor of the numerator and
denominator. -/
theorem divInt_pad (num : ℤ) (den : ℕ) (hden : 0 < den) (k : ℕ)
    (hdvd : den ∣ 10 ^ k) :
    Rat.divInt (num * ((10 ^ k / den : ℕ) : ℤ)) ((10 ^ k : ℕ) : ℤ)
      = Rat.divInt num den := by
  obtain ⟨c, hc⟩ := hdvd
  have hc2 : (10 ^ k / den : ℕ) = c := by
    rw [hc]
    exact Nat.mul_div_cancel_left c hden
  have hcpos : 0 < c := by
    rcases Nat.eq_zero_or_pos c with h | h
    · rw [h, Nat.mul_zero] at hc
      exact absurd hc (by positivity)
    · exact h
  rw [hc2, hc]
  push_cast
  exact Rat.divInt_mul_right (by exact_mod_cast hcpos.ne')

/-- The number body reads back a printed non-negative decimal real. -/
theorem readNumberBody_real (neg : Bool) (num den : ℕ) (hden : 0 < den)
    (k : ℕ) (hk : findPow10 (den + 1) den 0 = Option.some k) :
    ∀ rest, numGuard rest →
      readNumberBody neg (printRealPos num den ++ rest)
        = .ok (⟨neg, num * (10 ^ k / den), 10 ^ k, true⟩, rest) := by
  intro rest hg
  have hM : num * (10 ^ k / den) / 10 ^ k * 10 ^ k
      + num * (10 ^ k / den) % 10 ^ k = num * (10 ^ k / den) := by
    have h2 := Nat.div_add_mod (num * (10 ^ k / den)) (10 ^ k)
    ring_nf
    ring_nf at h2
    omega
  have hmod : num * (10 ^ k / den) % 10 ^ k < 10 ^ k :=
    Nat.mod_lt _ (pow_pos (by omega) k)
  have hpr : printRealPos num den
      = natChars (num * (10 ^ k / den) / 10 ^ k)
        ++ '.' :: padDigits k (num * (10 ^ k / den) % 10 ^ k) := by
    rw [printRealPos, hk]
  have hsplit : printRealPos num den ++ rest
      = natChars (num * (10 ^ k / den) / 10 ^ k)
        ++ ('.' :: (padDigits k (num * (10 ^ k / den) % 10 ^ k) ++ rest)) := by
    rw [hpr, List.append_assoc, List.cons_append]
  obtain ⟨hdig, ⟨c, t, hct, hcdig, hcz⟩, hval⟩ :=
    natChars_spec (num * (10 ^ k / den) / 10 ^ k)
  have hfrac := readDecTail_frac neg ['0'] k (num * (10 ^ k / den) % 10 ^ k)
    hmod rest hg
  by_cases hI : num * (10 ^ k / den) / 10 ^ k = 0
  · rw [hsplit, hI]
    have h0 : natChars 0 = ['0'] := rfl
    rw [h0, List.cons_append, List.nil_append]
    have hbody : readNumberBody neg
        ('0' :: ('.' :: (padDigits k (num * (10 ^ k / den) % 10 ^ k) ++ rest)))
        = readDecTail neg ['0']
            ('.' :: (padDigits k (num * (10 ^ k / den) % 10 ^ k) ++ rest)) := by
      simp [readNumberBody]
      intro h2
      exact absurd h2 (by decide)
    rw [hbody, hfrac]
    have hz : decValue ['0'] * 10 ^ k + num * (10 ^ k / den) % 10 ^ k
        = num * (10 ^ k / den) := by
      have h2 : decValue ['0'] = 0 := rfl
      have hM2 := hM
      rw [hI] at hM2
      rw [h2]
      omega
    rw [hz]
  · have hd0 : c ≠ '0' := hcz (by omega)
    obtain ⟨ht, hd⟩ := takeWhile_dropWhile_append isDigitC
      (natChars (num * (10 ^ k / den) / 10 ^ k))
      ('.' :: (padDigits k (num * (10 ^ k / den) % 10 ^ k) ++ rest)) hdig
      (rfl : isDigitC '.' = false)
    rw [hsplit]
    rw [hct] at ht hd ⊢
    rw [List.cons_append]
    simp only [readNumberBody]
    rw [if_neg hd0, if_pos hcdig, ← List.cons_append, ht, hd, ← hct,
      readDecTail_frac neg _ k _ hmod rest hg, hval, hM]

/-- A printed separator tail never starts with a run character. -/
theorem delimOk_notRun : ∀ rest, delimOk rest → headNotP isRunChar rest := by
  intro rest h
  match rest, h with
  | [], _ => trivial
  | c :: t, h =>
    rcases h with h | h | h <;> subst h
    · exact (by decide : isRunChar ',' = false)
    · exact (by decide : isRunChar ']' = false)
    · exact (by decide : isRunChar '\x7d' = false)

/-- A printed separator tail never starts with whitespace. -/
theorem delimOk_notWs : ∀ rest, delimOk rest → headNotP isWsChar rest := by
  intro rest h
  match rest, h with
  | [], _ => trivial
  | c :: t, h =>
    rcases h with h | h | h <;> subst h
    · exact (by decide : isWsChar ',' = false)
    · exact (by decide : isWsChar ']' = false)
    · exact (by decide : isWsChar '\x7d' = false)

/-- A printed separator tail never starts with a letter. -/
theorem delimOk_notAlpha : ∀ rest, delimOk rest → headNotP isAlphaC rest := by
  intro rest h
  match rest, h with
  | [], _ => trivial
  | c :: t, h =>
    rcases h with h | h | h <;> subst h
    · exact (by decide : isAlphaC ',' = false)
    · exact (by decide : isAlphaC ']' = false)
    · exact (by decide : isAlphaC '\x7d' = false)

/-- The number dispatch of `readValue` stays off for a non-numeric,
non-sign head. -/
theorem noNumDispatch (c : Char) (cs : List Char) (hd : isDigitC c = false)
    (hm : c ≠ '-') (hp : c ≠ '+') :
    ¬(isDigitC c = true ∨ ((c = '-' ∨ c = '+') ∧ headIsDigit cs = true)) := by
  rintro (h | ⟨h2 | h2, h3⟩)
  · rw [hd] at h
    cases h
  · exact hm h2
  · exact hp h2

/-- The number dispatch of `readValue` stays off for a sign followed by a
non-digit. -/
theorem noNumDispatchSign (c b : Char) (bs : List Char) (hd : isDigitC c = false)
    (hb : isDigitC b = false) :
    ¬(isDigitC c = true ∨ ((c = '-' ∨ c = '+') ∧ headIsDigit (b :: bs) = true)) := by
  rintro (h | ⟨h2, h3⟩)
  · rw [hd] at h
    cases h
  · have h4 : isDigitC b = true := h3
    rw [hb] at h4
    cases h4

/-- `readValue` on an unquoted run hands the run to the classifier. -/
theorem readValue_run (classify : List Char → ConfigValue) (f : ℕ)
    (c : Char) (t rest : List Char)
    (h1 : c ≠ '[') (h2 : c ≠ '\x7b') (h3 : ¬(c = '"' ∨ c = '\''))
    (h4 : ¬(isDigitC c = true ∨ ((c = '-' ∨ c = '+') ∧ headIsDigit (t ++ rest) = true)))
    (h5 : ∀ x ∈ c :: t, isRunChar x = true)
    (h6 : headNotP isRunChar rest) :
    readValue classify (f + 1) (c :: (t ++ rest))
      = .ok (classify (c :: t), rest) := by
  obtain ⟨ht, hd⟩ := takeWhile_dropWhile_append isRunChar (c :: t) rest h5 h6
  rw [readValue, if_neg h1, if_neg h2, if_neg h3, if_neg h4,
    if_pos (h5 c (List.mem_cons_self c t)), ← List.cons_append, ht, hd]

/-- Every URI character is a run character. -/
theorem uriChar_isRunChar (c : Char) (h : uriChar c = true) : isRunChar c = true := by
  rw [uriChar] at h
  rw [isRunChar]
  simp only [Bool.not_eq_true', Bool.or_eq_false_iff] at h
  simp only [Bool.not_eq_true', Bool.or_eq_false_iff]
  exact ⟨⟨⟨⟨h.1.1.1.1.1.1.1.1, h.1.1.1.1.1.1.1.2⟩, h.1.1.1.1.1.1.2⟩,
    h.1.1.1.1.1.2⟩, h.1.1.1.1.2⟩

/-- A letter is not a digit. -/
theorem alpha_not_digit (c : Char) (h : isAlphaC c = true) : isDigitC c = false := by
  rw [isAlphaC] at h
  rw [isDigitC]
  simp only [Bool.or_eq_true, Bool.and_eq_true, decide_eq_true_eq] at h
  simp only [Bool.and_eq_false_iff, decide_eq_false_iff_not]
  omega

/-- Unpacking of a valid URI: a letter-led, non-empty run of URI
characters. -/
theorem validUri_spec (s : String) (h : validUri s = true) :
    ∃ c cs, s.toList = c :: cs ∧ isAlphaC c = true ∧
      (∀ x ∈ c :: cs, uriChar x = true) := by
  rw [validUri] at h
  match hs : s.toList with
  | [] =>
    rw [hs] at h
    cases h
  | c :: cs =>
    rw [hs] at h
    simp only [Bool.and_eq_true, List.all_eq_true] at h
    exact ⟨c, cs, rfl, h.1.1, h.2⟩

/-- `readQuoted` undoes the printer's escaping, consuming the closing
quote. -/
theorem readQuoted_escape : ∀ (s rest : List Char),
    readQuoted '"' (escapeChars s ++ '"' :: rest) = .ok (s, rest) := by
  intro s
  induction s with
  | nil =>
    intro rest
    show readQuoted '"' ('"' :: rest) = Except.ok ([], rest)
    rw [readQuoted.eq_def]
    simp
  | cons c t ih =>
    intro rest
    by_cases h1 : c = '"'
    · subst h1
      have he : escChar '"' = ['\\', '"'] := by decide
      rw [escapeChars, he]
      simp only [List.cons_append, List.nil_append]
      rw [readQuoted.eq_def]
      simp +decide [escUnescape, ih]
    · 
      by_cases h2 : c = '\\'
      · subst h2
        have he : escChar '\\' = ['\\', '\\'] := by decide
        rw [escapeChars, he]
        simp only [List.cons_append, List.nil_append]
        rw [readQuoted.eq_def]
        simp +decide [escUnescape, ih]
      · 
        by_cases h3 : c = '\n'
        · subst h3
          have he : escChar '\n' = ['\\', 'n'] := by decide
          rw [escapeChars, he]
          simp only [List.cons_append, List.nil_append]
          rw [readQuoted.eq_def]
          simp +decide [escUnescape, ih]
        · 
          by_cases h4 : c = '\r'
          · subst h4
            have he : escChar '\r' = ['\\', 'r'] := by decide
            rw [escapeChars, he]
            simp only [List.cons_append, List.nil_append]
            rw [readQuoted.eq_def]
            simp +decide [escUnescape, ih]
          · 
            by_cases h5 : c = '\t'
            · subst h5
              have he : escChar '\t' = ['\\', 't'] := by decide
              rw [escapeChars, he]
              simp only [List.cons_append, List.nil_append]
              rw [readQuoted.eq_def]
              simp +decide [escUnescape, ih]
            · 
              have he : escChar c = [c] := by
                rw [escChar, if_neg h1, if_neg h2, if_neg h3, if_neg h4, if_neg h5]
              rw [escapeChars, he]
              simp only [List.singleton_append, List.cons_append]
              rw [readQuoted.eq_def]
              simp [h1, h2, ih]

/-- The quoted printer output, re-associated for the parser. -/
theorem printEscaped_append (s : String) (X : List Char) :
    printEscaped s ++ X = '"' :: (escapeChars s.toList ++ ('"' :: X)) := by
  rw [printEscaped]
  simp [List.append_assoc]

/-- `readValue` reads back a printed (quoted, escaped) string. -/
theorem readValue_string (classify : List Char → ConfigValue) (f : ℕ)
    (s : String) (rest : List Char) :
    readValue classify (f + 1) (printEscaped s ++ rest) = .ok (.string s, rest) := by
  rw [printEscaped_append, readValue,
    if_neg (by decide : ¬('"' = '[')),
    if_neg (by decide : ¬('"' = '\x7b')),
    if_pos (Or.inl rfl), readQuoted_escape]
  rfl

/-- `readKey` reads back a printed (quoted, escaped) dictionary key as a
single-segment path. -/
theorem readKey_quoted (k rest : List Char) :
    readKey ('"' :: (escapeChars k ++ '"' :: rest)) = .ok ([⟨k⟩], rest) := by
  rw [readKey, if_pos (Or.inl rfl), readQuoted_escape]

/-- A digit head never collides with the bracket, brace or quote
dispatch. -/
theorem digit_facts (c : Char) (h : isDigitC c = true) :
    c ≠ '[' ∧ c ≠ '\x7b' ∧ ¬(c = '"' ∨ c = '\'') := by
  refine ⟨?_, ?_, ?_⟩
  · intro he
    subst he
    exact absurd h (by decide)
  · intro he
    subst he
    exact absurd h (by decide)
  · rintro (he | he) <;> subst he
    · exact absurd h (by decide)
    · exact absurd h (by decide)

/-- `takeWhile`/`dropWhile` when the head already fails the predicate. -/
theorem takeWhile_head_none (p : Char → Bool) (rest : List Char)
    (h : headNotP p rest) : rest.takeWhile p = [] ∧ rest.dropWhile p = rest := by
  have h2 := takeWhile_dropWhile_append p [] rest (by intro x hx; cases hx) h
  simpa using h2

/-- `readNumberValue` through a known `readNumber` result. -/
theorem readNumberValue_of (cs : List Char) (l : NumLit) (r : List Char)
    (h : readNumber cs = .ok (l, r)) :
    readNumberValue cs = (match numberToValue l (r.takeWhile isAlphaC) with
      | .ok v => .ok (v, r.dropWhile isAlphaC)
      | .error e => .error e) := by
  rw [readNumberValue, h]

/-- `numberToValue` on a bare integer literal within bounds. -/
theorem numberToValue_intLit (neg : Bool) (m : ℕ)
    (hlo : int64Min ≤ NumLit.signedInt ⟨neg, m, 1, false⟩)
    (hhi : NumLit.signedInt ⟨neg, m, 1, false⟩ ≤ int64Max) :
    numberToValue ⟨neg, m, 1, false⟩ []
      = .ok (.integer (NumLit.signedInt ⟨neg, m, 1, false⟩)) := by
  simp [numberToValue, hlo, hhi]

/-- `readNumberValue` reads back a printed integer within the int64
bounds. -/
theorem readNumberValue_int (n : ℤ) (hlo : int64Min ≤ n) (hhi : n ≤ int64Max)
    (rest : List Char) (hg : numGuard rest) (ha : headNotP isAlphaC rest) :
    readNumberValue (intChars n ++ rest) = .ok (.integer n, rest) := by
  obtain ⟨hta, hda⟩ := takeWhile_head_none isAlphaC rest ha
  have hbg := numGuard_bodyGuard rest hg
  by_cases hneg : n < 0
  · have hic : intChars n = '-' :: natChars n.natAbs := by
      rw [intChars, if_pos hneg]
    have hsi : NumLit.signedInt ⟨true, n.natAbs, 1, false⟩ = n := by
      show (-1 : ℤ) * ↑n.natAbs = n
      omega
    have hrn : readNumber (intChars n ++ rest)
        = .ok (⟨true, n.natAbs, 1, false⟩, rest) := by
      rw [hic, List.cons_append, readNumber_minus,
        readNumberBody_natChars true n.natAbs rest hbg]
    rw [readNumberValue_of _ _ _ hrn, hta, hda,
      numberToValue_intLit true n.natAbs (by rw [hsi]; exact hlo)
        (by rw [hsi]; exact hhi), hsi]
  · have hic : intChars n = natChars n.natAbs := by
      rw [intChars, if_neg hneg]
    have hsi : NumLit.signedInt ⟨false, n.natAbs, 1, false⟩ = n := by
      show (1 : ℤ) * ↑n.natAbs = n
      omega
    obtain ⟨c, t, hct, hcm, hcp, hcd⟩ := natChars_head_not_sign n.natAbs
    have hrn : readNumber (intChars n ++ rest)
        = .ok (⟨false, n.natAbs, 1, false⟩, rest) := by
      rw [hic, hct, List.cons_append, readNumber_unsigned c (t ++ rest) hcm hcp,
        ← List.cons_append, ← hct, readNumberBody_natChars false n.natAbs rest hbg]
    rw [readNumberValue_of _ _ _ hrn, hta, hda,
      numberToValue_intLit false n.natAbs (by rw [hsi]; exact hlo)
        (by rw [hsi]; exact hhi), hsi]

/-- `readValue` reads back a printed integer. -/
theorem readValue_integer (classify : List Char → ConfigValue) (f : ℕ) (n : ℤ)
    (hlo : int64Min ≤ n) (hhi : n ≤ int64Max) (rest : List Char)
    (hg : delimOk rest) :
    readValue classify (f + 1) (intChars n ++ rest) = .ok (.integer n, rest) := by
  have hrnv := readNumberValue_int n hlo hhi rest (delimOk_numGuard rest hg)
    (delimOk_notAlpha rest hg)
  obtain ⟨c, t, hct, hcm, hcp, hcd⟩ := natChars_head_not_sign n.natAbs
  obtain ⟨hf1, hf2, hf3⟩ := digit_facts c hcd
  by_cases hneg : n < 0
  · have hic : intChars n = '-' :: natChars n.natAbs := by
      rw [intChars, if_pos hneg]
    have hhid : headIsDigit (natChars n.natAbs ++ rest) = true := by
      rw [hct, List.cons_append]
      exact hcd
    rw [hic, List.cons_append, readValue,
      if_neg (by decide : ¬('-' = '[')),
      if_neg (by decide : ¬('-' = '\x7b')),
      if_neg (by decide : ¬('-' = '"' ∨ '-' = '\'')),
      if_pos (Or.inr ⟨Or.inl rfl, hhid⟩), ← List.cons_append, ← hic]
    exact hrnv
  · have hic : intChars n = natChars n.natAbs := by
      rw [intChars, if_neg hneg]
    rw [hic, hct, List.cons_append, readValue, if_neg hf1, if_neg hf2, if_neg hf3,
      if_pos (Or.inl hcd), ← List.cons_append, ← hct, ← hic]
    exact hrnv

/-- The unit `pickUnit` chooses: its multiplier is its own, it divides the
magnitude, and its text is a letter run whose head extends no number
production. -/
theorem pickUnit_spec (n : ℕ) :
    timespanMult (pickUnit n).2 = Option.some (pickUnit n).1 ∧
    (pickUnit n).1 ∣ n ∧ 0 < (pickUnit n).1 ∧
    (∀ x ∈ (pickUnit n).2, isAlphaC x = true) ∧
    (∃ b bs, (pickUnit n).2 = b :: bs ∧ isDigitC b = false ∧ b ≠ 'x' ∧
      b ≠ 'X' ∧ b ≠ 'b' ∧ b ≠ 'B' ∧ b ≠ '.' ∧ b ≠ 'e' ∧ b ≠ 'E' ∧
      b ≠ '-' ∧ b ≠ '+') := by
  rw [pickUnit]
  split_ifs with h1 h2 h3 h4 h5 <;>
    refine ⟨rfl, ?_, by decide, by decide,
      ⟨_, _, rfl, by decide, by decide, by decide, by decide, by decide,
        by decide, by decide, by decide, by decide, by decide⟩⟩ <;>
    first
      | assumption
      | exact one_dvd n

/-- `numberToValue` on an integer literal with a timespan suffix. -/
theorem numberToValue_ts (neg : Bool) (q : ℕ) (b : Char) (bs : List Char)
    (m : ℕ) (hmult : timespanMult (b :: bs) = Option.some m)
    (hlo : int64Min ≤ NumLit.signedNs ⟨neg, q, 1, false⟩ m)
    (hhi : NumLit.signedNs ⟨neg, q, 1, false⟩ m ≤ int64Max) :
    numberToValue ⟨neg, q, 1, false⟩ (b :: bs)
      = .ok (.timespan (NumLit.signedNs ⟨neg, q, 1, false⟩ m)) := by
  simp [numberToValue, hmult, hlo, hhi]

/-- `readNumberValue` reads back a printed timespan within the int64
bounds. -/
theorem readNumberValue_timespan (n : ℤ) (hlo : int64Min ≤ n)
    (hhi : n ≤ int64Max) (rest : List Char) (hg : numGuard rest)
    (ha : headNotP isAlphaC rest) :
    readNumberValue (printTimespan n ++ rest) = .ok (.timespan n, rest) := by
  obtain ⟨hmult, hdvd, hpos, halpha, b, bs, hunit, hb1, hb2, hb3, hb4, hb5,
    hb6, hb7, hb8, hb9, hb10⟩ := pickUnit_spec n.natAbs
  have hbg : bodyGuard ((pickUnit n.natAbs).2 ++ rest) := by
    rw [hunit, List.cons_append]
    exact ⟨hb1, hb2, hb3, hb4, hb5, hb6, hb7, hb8⟩
  obtain ⟨hta, hda⟩ := takeWhile_dropWhile_append isAlphaC (pickUnit n.natAbs).2
    rest halpha ha
  have hq : n.natAbs / (pickUnit n.natAbs).1 * (pickUnit n.natAbs).1
      = n.natAbs := Nat.div_mul_cancel hdvd
  by_cases hneg : n < 0
  · have hsn : NumLit.signedNs ⟨true, n.natAbs / (pickUnit n.natAbs).1, 1, false⟩
        (pickUnit n.natAbs).1 = n := by
      show (-1 : ℤ)
        * ↑(n.natAbs / (pickUnit n.natAbs).1 * (pickUnit n.natAbs).1 / 1) = n
      rw [Nat.div_one, hq]
      omega
    have hpt : printTimespan n ++ rest
        = '-' :: (natChars (n.natAbs / (pickUnit n.natAbs).1)
          ++ ((pickUnit n.natAbs).2 ++ rest)) := by
      rw [printTimespan, if_pos hneg]
      simp [List.append_assoc]
    have hrn : readNumber (printTimespan n ++ rest)
        = .ok (⟨true, n.natAbs / (pickUnit n.natAbs).1, 1, false⟩,
          (pickUnit n.natAbs).2 ++ rest) := by
      rw [hpt, readNumber_minus, readNumberBody_natChars true _ _ hbg]
    rw [readNumberValue_of _ _ _ hrn, hta, hda, hunit,
      numberToValue_ts true _ b bs (pickUnit n.natAbs).1 (hunit ▸ hmult)
        (by rw [hsn]; exact hlo) (by rw [hsn]; exact hhi), hsn]
  · have hsn : NumLit.signedNs ⟨false, n.natAbs / (pickUnit n.natAbs).1, 1, false⟩
        (pickUnit n.natAbs).1 = n := by
      show (1 : ℤ)
        * ↑(n.natAbs / (pickUnit n.natAbs).1 * (pickUnit n.natAbs).1 / 1) = n
      rw [Nat.div_one, hq]
      omega
    obtain ⟨c, t, hct, hcm, hcp, hcd⟩ :=
      natChars_head_not_sign (n.natAbs / (pickUnit n.natAbs).1)
    have hpt : printTimespan n ++ rest
        = natChars (n.natAbs / (pickUnit n.natAbs).1)
          ++ ((pickUnit n.natAbs).2 ++ rest) := by
      rw [printTimespan, if_neg hneg]
      simp [List.append_assoc]
    have hrn : readNumber (printTimespan n ++ rest)
        = .ok (⟨false, n.natAbs / (pickUnit n.natAbs).1, 1, false⟩,
          (pickUnit n.natAbs).2 ++ rest) := by
      rw [hpt, hct, List.cons_append, readNumber_unsigned c _ hcm hcp,
        ← List.cons_append, ← hct, readNumberBody_natChars false _ _ hbg]
    rw [readNumberValue_of _ _ _ hrn, hta, hda, hunit,
      numberToValue_ts false _ b bs (pickUnit n.natAbs).1 (hunit ▸ hmult)
        (by rw [hsn]; exact hlo) (by rw [hsn]; exact hhi), hsn]

/-- `readValue` reads back a printed timespan. -/
theorem readValue_timespan (classify : List Char → ConfigValue) (f : ℕ) (n : ℤ)
    (hlo : int64Min ≤ n) (hhi : n ≤ int64Max) (rest : List Char)
    (hg : delimOk rest) :
    readValue classify (f + 1) (printTimespan n ++ rest)
      = .ok (.timespan n, rest) := by
  have hrnv := readNumberValue_timespan n hlo hhi rest (delimOk_numGuard rest hg)
    (delimOk_notAlpha rest hg)
  obtain ⟨c, t, hct, hcm, hcp, hcd⟩ :=
    natChars_head_not_sign (n.natAbs / (pickUnit n.natAbs).1)
  obtain ⟨hf1, hf2, hf3⟩ := digit_facts c hcd
  by_cases hneg : n < 0
  · have hpt : printTimespan n ++ rest
        = '-' :: (natChars (n.natAbs / (pickUnit n.natAbs).1)
          ++ ((pickUnit n.natAbs).2 ++ rest)) := by
      rw [printTimespan, if_pos hneg]
      simp [List.append_assoc]
    have hhid : headIsDigit (natChars (n.natAbs / (pickUnit n.natAbs).1)
        ++ ((pickUnit n.natAbs).2 ++ rest)) = true := by
      rw [hct, List.cons_append]
      exact hcd
    rw [hpt, readValue,
      if_neg (by decide : ¬('-' = '[')),
      if_neg (by decide : ¬('-' = '\x7b')),
      if_neg (by decide : ¬('-' = '"' ∨ '-' = '\'')),
      if_pos (Or.inr ⟨Or.inl rfl, hhid⟩), ← hpt]
    exact hrnv
  · have hpt : printTimespan n ++ rest
        = natChars (n.natAbs / (pickUnit n.natAbs).1)
          ++ ((pickUnit n.natAbs).2 ++ rest) := by
      rw [printTimespan, if_neg hneg]
      simp [List.append_assoc]
    rw [hpt, hct, List.cons_append, readValue, if_neg hf1, if_neg hf2,
      if_neg hf3, if_pos (Or.inl hcd), ← List.cons_append, ← hct, ← hpt]
    exact hrnv

/-- `numberToValue` on a real literal. -/
theorem numberToValue_realLit (neg : Bool) (N D : ℕ) :
    numberToValue ⟨neg, N, D, true⟩ []
      = .ok (.real (.fin (NumLit.toRat ⟨neg, N, D, true⟩))) := by
  simp [numberToValue]

/-- The scanned literal of an unsigned printed real denotes the printed
rational. -/
theorem toRat_pad_pos (num : ℤ) (hnum : 0 ≤ num) (den k : ℕ)
    (hden : 0 < den) (hdvd : den ∣ 10 ^ k) :
    NumLit.toRat ⟨false, num.toNat * (10 ^ k / den), 10 ^ k, true⟩
      = Rat.divInt num den := by
  have hcast : ((num.toNat * (10 ^ k / den) : ℕ) : ℤ)
      = num * ((10 ^ k / den : ℕ) : ℤ) := by
    rw [Nat.cast_mul, Int.toNat_of_nonneg hnum]
  rw [NumLit.toRat]
  show Rat.divInt (1 * ↑(num.toNat * (10 ^ k / den))) (((10 ^ k : ℕ) : ℤ))
      = Rat.divInt num ↑den
  rw [one_mul, hcast, divInt_pad num den hden k hdvd]

/-- The scanned literal of a sign-stripped printed real denotes the negated
printed rational. -/
theorem toRat_pad_neg (num : ℤ) (hnum : 0 ≤ num) (den k : ℕ)
    (hden : 0 < den) (hdvd : den ∣ 10 ^ k) :
    NumLit.toRat ⟨true, num.toNat * (10 ^ k / den), 10 ^ k, true⟩
      = -Rat.divInt num den := by
  have hcast : ((num.toNat * (10 ^ k / den) : ℕ) : ℤ)
      = num * ((10 ^ k / den : ℕ) : ℤ) := by
    rw [Nat.cast_mul, Int.toNat_of_nonneg hnum]
  rw [NumLit.toRat]
  show Rat.divInt (-1 * ↑(num.toNat * (10 ^ k / den))) (((10 ^ k : ℕ) : ℤ))
      = -Rat.divInt num ↑den
  rw [hcast, show (-1 : ℤ) * (num * ((10 ^ k / den : ℕ) : ℤ))
      = -num * ((10 ^ k / den : ℕ) : ℤ) by ring,
    divInt_pad (-num) den hden k hdvd, Rat.neg_divInt]

/-- The exact-decimal printer starts with a digit. -/
theorem printRealPos_head (num den : ℕ) :
    ∃ c t, printRealPos num den = c :: t ∧ isDigitC c = true := by
  rw [printRealPos]
  match hk : findPow10 (den + 1) den 0 with
  | Option.some k =>
    obtain ⟨-, ⟨c, t2, hct, hcd, -⟩, -⟩ :=
      natChars_spec (num * (10 ^ k / den) / 10 ^ k)
    refine ⟨c, t2 ++ '.' :: padDigits k (num * (10 ^ k / den) % 10 ^ k), ?_, hcd⟩
    show natChars (num * (10 ^ k / den) / 10 ^ k)
        ++ '.' :: padDigits k (num * (10 ^ k / den) % 10 ^ k)
      = c :: (t2 ++ '.' :: padDigits k (num * (10 ^ k / den) % 10 ^ k))
    rw [hct, List.cons_append]
  | Option.none =>
    exact ⟨'0', ['.'], rfl, by decide⟩

/-- `readNumberValue` reads back a printed finite real. -/
theorem readNumberValue_realFin (q : ℚ) (hwf : wfR (.fin q) = true)
    (rest : List Char) (hg : numGuard rest) (ha : headNotP isAlphaC rest) :
    readNumberValue (printReal (.fin q) ++ rest)
      = .ok (.real (.fin q), rest) := by
  rw [wfR] at hwf
  obtain ⟨k, hk⟩ := Option.isSome_iff_exists.mp hwf
  have hdvd := findPow10_spec (q.den + 1) q.den 0 k hk
  have hden := q.den_pos
  obtain ⟨hta, hda⟩ := takeWhile_head_none isAlphaC rest ha
  by_cases hqn : q.num < 0
  · have hpr : printReal (.fin q) = '-' :: printRealPos (-q.num).toNat q.den := by
      rw [printReal, if_pos hqn]
    have hrn : readNumber (printReal (.fin q) ++ rest)
        = .ok (⟨true, (-q.num).toNat * (10 ^ k / q.den), 10 ^ k, true⟩, rest) := by
      rw [hpr, List.cons_append, readNumber_minus,
        readNumberBody_real true (-q.num).toNat q.den hden k hk rest hg]
    rw [readNumberValue_of _ _ _ hrn, hta, hda, numberToValue_realLit,
      toRat_pad_neg (-q.num) (by omega) q.den k hden hdvd, Rat.neg_divInt,
      neg_neg, Rat.num_divInt_den]
  · have hpr : printReal (.fin q) = printRealPos q.num.toNat q.den := by
      rw [printReal, if_neg hqn]
    have hrn : readNumber (printReal (.fin q) ++ rest)
        = .ok (⟨false, q.num.toNat * (10 ^ k / q.den), 10 ^ k, true⟩, rest) := by
      obtain ⟨c, t, hct, hcd⟩ := printRealPos_head q.num.toNat q.den
      obtain ⟨hcm, hcp⟩ : c ≠ '-' ∧ c ≠ '+' := by
        constructor <;> (intro he; subst he; exact absurd hcd (by decide))
      rw [hpr, hct, List.cons_append, readNumber_unsigned c _ hcm hcp,
        ← List.cons_append, ← hct,
        readNumberBody_real false q.num.toNat q.den hden k hk rest hg]
    rw [readNumberValue_of _ _ _ hrn, hta, hda, numberToValue_realLit,
      toRat_pad_pos q.num (by omega) q.den k hden hdvd, Rat.num_divInt_den]

/-- `readValue` reads back a printed finite real. -/
theorem readValue_realFin (classify : List Char → ConfigValue) (f : ℕ) (q : ℚ)
    (hwf : wfR (.fin q) = true) (rest : List Char) (hg : delimOk rest) :
    readValue classify (f + 1) (printReal (.fin q) ++ rest)
      = .ok (.real (.fin q), rest) := by
  have hrnv := readNumberValue_realFin q hwf rest (delimOk_numGuard rest hg)
    (delimOk_notAlpha rest hg)
  by_cases hqn : q.num < 0
  · have hpr : printReal (.fin q) = '-' :: printRealPos (-q.num).toNat q.den := by
      rw [printReal, if_pos hqn]
    obtain ⟨c, t, hct, hcd⟩ := printRealPos_head (-q.num).toNat q.den
    have hhid : headIsDigit (printRealPos (-q.num).toNat q.den ++ rest) = true := by
      rw [hct, List.cons_append]
      exact hcd
    rw [hpr, List.cons_append, readValue,
      if_neg (by decide : ¬('-' = '[')),
      if_neg (by decide : ¬('-' = '\x7b')),
      if_neg (by decide : ¬('-' = '"' ∨ '-' = '\'')),
      if_pos (Or.inr ⟨Or.inl rfl, hhid⟩), ← List.cons_append, ← hpr]
    exact hrnv
  · have hpr : printReal (.fin q) = printRealPos q.num.toNat q.den := by
      rw [printReal, if_neg hqn]
    obtain ⟨c, t, hct, hcd⟩ := printRealPos_head q.num.toNat q.den
    obtain ⟨hf1, hf2, hf3⟩ := digit_facts c hcd
    rw [hpr, hct, List.cons_append, readValue, if_neg hf1, if_neg hf2,
      if_neg hf3, if_pos (Or.inl hcd), ← List.cons_append, ← hct, ← hpr]
    exact hrnv

/-- A digit head is not whitespace and not a closing bracket. -/
theorem digit_head_facts (c : Char) (h : isDigitC c = true) :
    isWsChar c = false ∧ c ≠ ']' := by
  constructor
  · rw [isDigitC] at h
    rw [isWsChar]
    simp only [Bool.and_eq_true, decide_eq_true_eq] at h
    simp only [Bool.or_eq_false_iff, decide_eq_false_iff_not]
    omega
  · intro he
    exact absurd (he ▸ h) (by decide)

/-- A letter head is not whitespace and not a closing bracket. -/
theorem alpha_head_facts (c : Char) (h : isAlphaC c = true) :
    isWsChar c = false ∧ c ≠ ']' := by
  constructor
  · rw [isAlphaC] at h
    rw [isWsChar]
    simp only [Bool.or_eq_true, Bool.and_eq_true, decide_eq_true_eq] at h
    simp only [Bool.or_eq_false_iff, decide_eq_false_iff_not]
    omega
  · intro he
    exact absurd (he ▸ h) (by decide)

/-- The printed form of a well-formed value is non-empty and starts with a
character that is neither whitespace nor `]`. -/
theorem printValue_head (v : ConfigValue) (hwf : wfValue v = true) :
    ∃ c t, printValue v = c :: t ∧ isWsChar c = false ∧ c ≠ ']' := by
  cases v with
  | none => exact ⟨'n', _, rfl, by decide, by decide⟩
  | integer n =>
    by_cases hneg : n < 0
    · refine ⟨'-', natChars n.natAbs, ?_, by decide, by decide⟩
      show intChars n = _
      rw [intChars, if_pos hneg]
    · obtain ⟨-, ⟨c, t, hct, hcd, -⟩, -⟩ := natChars_spec n.natAbs
      obtain ⟨hw, hb⟩ := digit_head_facts c hcd
      refine ⟨c, t, ?_, hw, hb⟩
      show intChars n = _
      rw [intChars, if_neg hneg, hct]
  | boolean b =>
    cases b
    · exact ⟨'f', _, rfl, by decide, by decide⟩
    · exact ⟨'t', _, rfl, by decide, by decide⟩
  | real r =>
    cases r with
    | fin q =>
      by_cases hqn : q.num < 0
      · refine ⟨'-', printRealPos (-q.num).toNat q.den, ?_, by decide, by decide⟩
        show printReal (.fin q) = _
        rw [printReal, if_pos hqn]
      · obtain ⟨c, t, hct, hcd⟩ := printRealPos_head q.num.toNat q.den
        obtain ⟨hw, hb⟩ := digit_head_facts c hcd
        refine ⟨c, t, ?_, hw, hb⟩
        show printReal (.fin q) = _
        rw [printReal, if_neg hqn, hct]
    | posInf => exact ⟨'i', _, rfl, by decide, by decide⟩
    | negInf => exact ⟨'-', _, rfl, by decide, by decide⟩
    | nan => exact ⟨'n', _, rfl, by decide, by decide⟩
  | timespan n =>
    by_cases hneg : n < 0
    · refine ⟨'-', natChars (n.natAbs / (pickUnit n.natAbs).1)
        ++ (pickUnit n.natAbs).2, ?_, by decide, by decide⟩
      show printTimespan n = _
      rw [printTimespan, if_pos hneg]
      rfl
    · obtain ⟨-, ⟨c, t, hct, hcd, -⟩, -⟩ :=
        natChars_spec (n.natAbs / (pickUnit n.natAbs).1)
      obtain ⟨hw, hb⟩ := digit_head_facts c hcd
      refine ⟨c, t ++ (pickUnit n.natAbs).2, ?_, hw, hb⟩
      show printTimespan n = _
      rw [printTimespan, if_neg hneg, hct]
      rfl
  | uri u =>
    have hv : validUri u = true := hwf
    obtain ⟨c, cs, hcl, hal, -⟩ := validUri_spec u hv
    obtain ⟨hw, hb⟩ := alpha_head_facts c hal
    exact ⟨c, cs, hcl, hw, hb⟩
  | string s => exact ⟨'"', _, rfl, by decide, by decide⟩
  | list xs => exact ⟨'[', _, rfl, by decide, by decide⟩
  | dict xs => exact ⟨'\x7b', _, rfl, by decide, by decide⟩

/-- `skipWs` leaves a printed value (plus anything after it) alone. -/
theorem skipWs_printValue (v : ConfigValue) (hwf : wfValue v = true)
    (X : List Char) : skipWs (printValue v ++ X) = printValue v ++ X := by
  obtain ⟨c, t, hct, hw, -⟩ := printValue_head v hwf
  apply skipWs_not_ws
  rw [hct, List.cons_append]
  exact hw

/-- Concatenating the empty dictionary on the right changes nothing. -/
theorem CVDict.cat_nil : ∀ d : CVDict, CVDict.cat d .nil = d
  | .nil => rfl
  | .cons k v xs => by rw [CVDict.cat, CVDict.cat_nil xs]

/-- Key membership after an append. -/
theorem dictHasKey_append : ∀ (d : CVDict) (k : String) (v : ConfigValue)
    (s : String), dictHasKey (dictAppend d k v) s = (dictHasKey d s || k == s)
  | .nil, k, v, s => by
    show (k == s || false) = (false || k == s)
    simp
  | .cons k2 v2 xs, k, v, s => by
    show (k2 == s || dictHasKey (dictAppend xs k v) s)
        = ((k2 == s || dictHasKey xs s) || k == s)
    rw [dictHasKey_append xs k v s, Bool.or_assoc]

/-- `put` of a fresh key appends. -/
theorem dictPut_fresh (d : CVDict) (k : String) (v : ConfigValue)
    (h : dictHasKey d k = false) : dictPut d k v = dictAppend d k v := by
  rw [dictPut, h]
  rfl

/-- Appending an entry then concatenating is concatenating with the entry
in front. -/
theorem dictAppend_cat : ∀ (d : CVDict) (k : String) (v : ConfigValue)
    (ys : CVDict), CVDict.cat (dictAppend d k v) ys = CVDict.cat d (.cons k v ys)
  | .nil, k, v, ys => rfl
  | .cons k2 v2 xs, k, v, ys => by
    show CVDict.cons k2 v2 (CVDict.cat (dictAppend xs k v) ys)
        = CVDict.cons k2 v2 (CVDict.cat xs (.cons k v ys))
    rw [dictAppend_cat xs k v ys]

/-- The first key of a batch of fresh entries is absent from the
accumulator. -/
theorem freshD_head (acc : CVDict) (k : String) (v : ConfigValue) (ys : CVDict)
    (h : freshD acc (.cons k v ys)) : dictHasKey acc k = false := by
  apply h k
  show (k == k || dictHasKey ys k) = true
  simp

/-- Freshness survives appending the first entry to the accumulator. -/
theorem freshD_step (acc : CVDict) (k : String) (v : ConfigValue) (ys : CVDict)
    (h : freshD acc (.cons k v ys)) (hk : dictHasKey ys k = false) :
    freshD (dictAppend acc k v) ys := by
  intro s hs
  rw [dictHasKey_append]
  have h1 : dictHasKey acc s = false := by
    apply h s
    show (k == s || dictHasKey ys s) = true
    rw [hs, Bool.or_true]
  rw [h1, Bool.false_or]
  cases hkeq : k == s
  · rfl
  · have h2 : k = s := eq_of_beq hkeq
    subst h2
    rw [hs] at hk
    cases hk

/-- The empty accumulator is fresh for anything. -/
theorem freshD_nil (d : CVDict) : freshD .nil d := by
  intro s _
  rfl

/-- Every value needs at least one unit of fuel. -/
theorem needValue_pos (v : ConfigValue) : 1 ≤ needValue v := by
  cases v <;> first
    | exact Nat.le_refl 1
    | exact Nat.le_add_right 1 _

/-- Every item list needs at least one unit of fuel. -/
theorem needItems_pos (xs : CVList) : 1 ≤ needItems xs := by
  cases xs with
  | nil => exact Nat.le_refl 1
  | cons x ys => show 1 ≤ 1 + needValue x + needItems ys; omega

/-- Every entry list needs at least one unit of fuel. -/
theorem needEntries_pos (xs : CVDict) : 1 ≤ needEntries xs := by
  cases xs
  · exact Nat.le_refl 1
  · show 1 ≤ 2 + _ + _
    omega

mutual
/-- The fuel a value needs is bounded by its printed length. -/
theorem needValue_le : ∀ v : ConfigValue,
    needValue v ≤ 2 * (printValue v).length + 1
  | .none => by show 1 ≤ 2 * (printValue .none).length + 1; omega
  | .integer n => by show 1 ≤ 2 * (printValue (.integer n)).length + 1; omega
  | .boolean b => by show 1 ≤ 2 * (printValue (.boolean b)).length + 1; omega
  | .real r => by show 1 ≤ 2 * (printValue (.real r)).length + 1; omega
  | .timespan n => by show 1 ≤ 2 * (printValue (.timespan n)).length + 1; omega
  | .uri u => by show 1 ≤ 2 * (printValue (.uri u)).length + 1; omega
  | .string s => by show 1 ≤ 2 * (printValue (.string s)).length + 1; omega
  | .list xs => by
    have h := needItems_le xs
    show 1 + needItems xs ≤ 2 * ('[' :: (printItems xs ++ [']'])).length + 1
    simp only [List.length_cons, List.length_append, List.length_singleton]
    omega
  | .dict xs => by
    have h := needEntries_le xs
    show 1 + needEntries xs
        ≤ 2 * ('\x7b' :: (printEntries xs ++ ['\x7d'])).length + 1
    simp only [List.length_cons, List.length_append, List.length_singleton]
    omega
/-- The fuel an item list needs is bounded by its printed length. -/
theorem needItems_le : ∀ xs : CVList,
    needItems xs ≤ 2 * (printItems xs).length + 3
  | .nil => by show 1 ≤ 2 * (printItems .nil).length + 3; omega
  | .cons x .nil => by
    have h := needValue_le x
    show 1 + needValue x + 1 ≤ 2 * (printValue x).length + 3
    omega
  | .cons x (.cons y ys) => by
    have h1 := needValue_le x
    have h2 := needItems_le (.cons y ys)
    show 1 + needValue x + needItems (.cons y ys)
        ≤ 2 * (printValue x ++ ',' :: ' ' :: printItems (.cons y ys)).length + 3
    simp only [List.length_append, List.length_cons]
    omega
/-- The fuel an entry list needs is bounded by its printed length. -/
theorem needEntries_le : ∀ xs : CVDict,
    needEntries xs ≤ 2 * (printEntries xs).length + 3
  | .nil => by show 1 ≤ 2 * (printEntries .nil).length + 3; omega
  | .cons k v .nil => by
    have h := needValue_le v
    show 2 + needValue v + 1
        ≤ 2 * (printEscaped k ++ ' ' :: '=' :: ' ' :: printValue v).length + 3
    simp only [List.length_append, List.length_cons]
    omega
  | .cons k v (.cons k2 v2 ys) => by
    have h1 := needValue_le v
    have h2 := needEntries_le (.cons k2 v2 ys)
    show 2 + needValue v + needEntries (.cons k2 v2 ys)
        ≤ 2 * (printEscaped k ++ ' ' :: '=' :: ' ' :: printValue v
          ++ ',' :: ' ' :: printEntries (.cons k2 v2 ys)).length + 3
    simp only [List.length_append, List.length_cons]
    omega
end

/-- One `readItems` step whose element is followed by a comma. -/
theorem readItems_step_comma (classify : List Char → ConfigValue) (f : ℕ)
    (c : Char) (cs : List Char) (hcb : c ≠ ']') (v : ConfigValue)
    (X : List Char) (hX : skipWs X = X)
    (hV : readValue classify f (c :: cs) = .ok (v, ',' :: ' ' :: X)) :
    readItems classify (f + 1) (c :: cs)
      = (match readItems classify f X with
         | .ok (xs, r3) => .ok (.cons v xs, r3)
         | .error e => .error e) := by
  rw [readItems, if_neg hcb, hV]
  show (match readItems classify f (skipWs (' ' :: X)) with
        | Except.ok (xs, r3) => Except.ok (CVList.cons v xs, r3)
        | Except.error e => Except.error e)
      = (match readItems classify f X with
         | Except.ok (xs, r3) => Except.ok (CVList.cons v xs, r3)
         | Except.error e => Except.error e)
  rw [(skipWs_space X).trans hX]

/-- One `readItems` step whose element closes the list. -/
theorem readItems_step_close (classify : List Char → ConfigValue) (f : ℕ)
    (c : Char) (cs : List Char) (hcb : c ≠ ']') (v : ConfigValue)
    (r2 : List Char)
    (hV : readValue classify f (c :: cs) = .ok (v, ']' :: r2)) :
    readItems classify (f + 1) (c :: cs) = .ok (.cons v .nil, r2) := by
  rw [readItems, if_neg hcb, hV]
  exact rfl

/-- One `readEntries` step across a printed `"key" = value` pair. -/
theorem readEntries_step (classify : List Char → ConfigValue) (f : ℕ)
    (acc : CVDict) (k : String) (X : List Char) (v : ConfigValue)
    (r3 : List Char) (hX : skipWs X = X)
    (hV : readValue classify f X = .ok (v, r3)) :
    readEntries classify (f + 1) acc (printEscaped k ++ (' ' :: '=' :: ' ' :: X))
      = contEntries classify f (dictPut acc k v) (skipWs r3) := by
  rw [printEscaped_append, readEntries, if_neg (by decide : ¬('"' = '\x7d')),
    readKey_quoted]
  show (match readValue classify f (skipWs (' ' :: X)) with
        | Except.ok (v2, r4) =>
          (match dictInsert acc [(⟨k.toList⟩ : String)] v2 with
           | Except.ok acc2 => contEntries classify f acc2 (skipWs r4)
           | Except.error e => Except.error e)
        | Except.error e => Except.error e)
      = contEntries classify f (dictPut acc k v) (skipWs r3)
  rw [(skipWs_space X).trans hX, hV]
  exact rfl

/-- `contEntries` on a comma continues reading entries. -/
theorem contEntries_comma (classify : List Char → ConfigValue) (f : ℕ)
    (acc : CVDict) (X : List Char) (hX : skipWs X = X) :
    contEntries classify (f + 1) acc (',' :: ' ' :: X)
      = readEntries classify f acc X := by
  rw [contEntries, if_pos rfl]
  show readEntries classify f acc (skipWs (' ' :: X)) = readEntries classify f acc X
  rw [(skipWs_space X).trans hX]

/-- `contEntries` on a closing brace stops. -/
theorem contEntries_close (classify : List Char → ConfigValue) (f : ℕ)
    (acc : CVDict) (r : List Char) :
    contEntries classify (f + 1) acc ('\x7d' :: r) = .ok (acc, r) := by
  rw [contEntries, if_neg (by decide : ¬('\x7d' = ',')), if_pos rfl]

/-- Split a true Boolean conjunction. -/
theorem andE (a b : Bool) (h : (a && b) = true) : a = true ∧ b = true := by
  simp at h
  exact h

/-- A quoted printed key absorbs no following whitespace. -/
theorem skipWs_printEscaped (k : String) (X : List Char) :
    skipWs (printEscaped k ++ X) = printEscaped k ++ X := by
  rw [printEscaped_append]
  exact skipWs_not_ws _ (by decide : isWsChar '"' = false)

/-- A printed non-empty item list starts with its first printed element. -/
theorem printItems_cons_shape (x : ConfigValue) (ys : CVList) :
    ∃ T, printItems (.cons x ys) = printValue x ++ T := by
  cases ys with
  | nil =>
    refine ⟨[], ?_⟩
    show printValue x = printValue x ++ []
    rw [List.append_nil]
  | cons y ys2 => exact ⟨_, rfl⟩

/-- A printed item list absorbs no leading whitespace. -/
theorem skipWs_printItems (xs : CVList) (hwf : wfList xs = true) (X : List Char)
    (hXh : headNotP isWsChar X) :
    skipWs (printItems xs ++ X) = printItems xs ++ X := by
  cases xs with
  | nil =>
    show skipWs ([] ++ X) = [] ++ X
    rw [List.nil_append]
    exact skipWs_not_ws X hXh
  | cons x ys =>
    have h2 : (wfValue x && wfList ys) = true := hwf
    obtain ⟨T, hT⟩ := printItems_cons_shape x ys
    rw [hT, List.append_assoc]
    exact skipWs_printValue x (andE _ _ h2).1 _

/-- A printed non-empty entry list starts with its first printed key. -/
theorem printEntries_cons_shape (k : String) (v : ConfigValue) (ys : CVDict) :
    ∃ T, printEntries (.cons k v ys)
      = printEscaped k ++ (' ' :: '=' :: ' ' :: T) := by
  cases ys with
  | nil => exact ⟨printValue v, rfl⟩
  | cons k2 v2 ys2 =>
    refine ⟨printValue v ++ ',' :: ' ' :: printEntries (.cons k2 v2 ys2), ?_⟩
    show (printEscaped k ++ (' ' :: '=' :: ' ' :: printValue v))
        ++ (',' :: ' ' :: printEntries (.cons k2 v2 ys2))
      = printEscaped k ++ (' ' :: '=' :: ' ' ::
          (printValue v ++ ',' :: ' ' :: printEntries (.cons k2 v2 ys2)))
    simp [List.append_assoc]

/-- A printed entry list absorbs no leading whitespace. -/
theorem skipWs_printEntries (xs : CVDict) (X : List Char)
    (hXh : headNotP isWsChar X) :
    skipWs (printEntries xs ++ X) = printEntries xs ++ X := by
  cases xs with
  | nil =>
    show skipWs ([] ++ X) = [] ++ X
    rw [List.nil_append]
    exact skipWs_not_ws X hXh
  | cons k v ys =>
    obtain ⟨T, hT⟩ := printEntries_cons_shape k v ys
    rw [hT, List.append_assoc]
    exact skipWs_printEscaped k _

/-- The grammar reads back every printed well-formed value whose run-printed
leaves the classifier inverts, consuming exactly the printed text: the main
round-trip lemma, by strong induction on the fuel. -/
theorem readPrint (classify : List Char → ConfigValue) : ∀ f : ℕ,
    (∀ v rest, wfValue v = true → classOkV classify v → needValue v ≤ f →
      delimOk rest →
      readValue classify f (printValue v ++ rest) = .ok (v, rest)) ∧
    (∀ xs rest, wfList xs = true → classOkL classify xs → needItems xs ≤ f →
      readItems classify f (printItems xs ++ ']' :: rest) = .ok (xs, rest)) ∧
    (∀ acc xs rest, wfDict xs = true → classOkD classify xs →
      needEntries xs ≤ f → freshD acc xs →
      readEntries classify f acc (printEntries xs ++ '\x7d' :: rest)
        = .ok (CVDict.cat acc xs, rest)) := by
  intro f
  induction f using Nat.strong_induction_on with
  | _ f ih =>
  refine ⟨?_, ?_, ?_⟩
  · intro v rest hwf hcls hneed hrest
    obtain ⟨f', rfl⟩ : ∃ f', f = f' + 1 :=
      ⟨f - 1, by have := needValue_pos v; omega⟩
    cases v with
    | none =>
      have hc : classify ['n', 'u', 'l', 'l'] = .none := hcls
      have h := readValue_run classify f' 'n' ['u', 'l', 'l'] rest
        (by decide) (by decide) (by decide)
        (noNumDispatch 'n' _ (by decide) (by decide) (by decide))
        (by decide) (delimOk_notRun rest hrest)
      exact h.trans (by rw [hc])
    | integer n =>
      have hb : decide (int64Min ≤ n ∧ n ≤ int64Max) = true := hwf
      obtain ⟨hlo, hhi⟩ := of_decide_eq_true hb
      exact readValue_integer classify f' n hlo hhi rest hrest
    | boolean b =>
      cases b with
      | false =>
        have hc : classify ['f', 'a', 'l', 's', 'e'] = .boolean false := hcls
        have h := readValue_run classify f' 'f' ['a', 'l', 's', 'e'] rest
          (by decide) (by decide) (by decide)
          (noNumDispatch 'f' _ (by decide) (by decide) (by decide))
          (by decide) (delimOk_notRun rest hrest)
        exact h.trans (by rw [hc])
      | true =>
        have hc : classify ['t', 'r', 'u', 'e'] = .boolean true := hcls
        have h := readValue_run classify f' 't' ['r', 'u', 'e'] rest
          (by decide) (by decide) (by decide)
          (noNumDispatch 't' _ (by decide) (by decide) (by decide))
          (by decide) (delimOk_notRun rest hrest)
        exact h.trans (by rw [hc])
    | real r =>
      cases r with
      | fin q =>
        have hwr : wfR (.fin q) = true := hwf
        exact readValue_realFin classify f' q hwr rest hrest
      | posInf =>
        have hc : classify ['i', 'n', 'f'] = .real .posInf := hcls
        have h := readValue_run classify f' 'i' ['n', 'f'] rest
          (by decide) (by decide) (by decide)
          (noNumDispatch 'i' _ (by decide) (by decide) (by decide))
          (by decide) (delimOk_notRun rest hrest)
        exact h.trans (by rw [hc])
      | negInf =>
        have hc : classify ['-', 'i', 'n', 'f'] = .real .negInf := hcls
        have h := readValue_run classify f' '-' ['i', 'n', 'f'] rest
          (by decide) (by decide) (by decide)
          (noNumDispatchSign '-' 'i' _ (by decide) (by decide))
          (by decide) (delimOk_notRun rest hrest)
        exact h.trans (by rw [hc])
      | nan =>
        have hc : classify ['n', 'a', 'n'] = .real .nan := hcls
        have h := readValue_run classify f' 'n' ['a', 'n'] rest
          (by decide) (by decide) (by decide)
          (noNumDispatch 'n' _ (by decide) (by decide) (by decide))
          (by decide) (delimOk_notRun rest hrest)
        exact h.trans (by rw [hc])
    | timespan n =>
      have hb : decide (int64Min ≤ n ∧ n ≤ int64Max) = true := hwf
      obtain ⟨hlo, hhi⟩ := of_decide_eq_true hb
      exact readValue_timespan classify f' n hlo hhi rest hrest
    | uri u =>
      have hv : validUri u = true := hwf
      have hc : classify u.toList = .uri u := hcls
      obtain ⟨c, cs, hcl, hal, hall⟩ := validUri_spec u hv
      have h1 : c ≠ '[' := fun he => absurd (he ▸ hal) (by decide)
      have h2 : c ≠ '\x7b' := fun he => absurd (he ▸ hal) (by decide)
      have h3 : ¬(c = '"' ∨ c = '\'') := by
        rintro (he | he) <;> exact absurd (he ▸ hal) (by decide)
      have hm : c ≠ '-' := fun he => absurd (he ▸ hal) (by decide)
      have hp : c ≠ '+' := fun he => absurd (he ▸ hal) (by decide)
      have h5 : ∀ x ∈ c :: cs, isRunChar x = true := fun x hx =>
        uriChar_isRunChar x (hall x hx)
      show readValue classify (f' + 1) (u.toList ++ rest) = .ok (.uri u, rest)
      rw [hcl, List.cons_append,
        readValue_run classify f' c cs rest h1 h2 h3
          (noNumDispatch c _ (alpha_not_digit c hal) hm hp) h5
          (delimOk_notRun rest hrest),
        ← hcl, hc]
    | string s => exact readValue_string classify f' s rest
    | list xs =>
      have hwl : wfList xs = true := hwf
      have hcl2 : classOkL classify xs := hcls
      have hnd : 1 + needItems xs ≤ f' + 1 := hneed
      have hsplit : printValue (.list xs) ++ rest
          = '[' :: (printItems xs ++ ']' :: rest) := by
        show ('[' :: (printItems xs ++ [']'])) ++ rest = _
        simp [List.append_assoc]
      have hskip : skipWs (printItems xs ++ ']' :: rest)
          = printItems xs ++ ']' :: rest :=
        skipWs_printItems xs hwl _ (by exact (by decide : isWsChar ']' = false))
      have hQ := (ih f' (by omega)).2.1 xs rest hwl hcl2 (by omega)
      rw [hsplit, readValue, if_pos rfl, hskip, hQ]
    | dict xs =>
      have hwd : wfDict xs = true := hwf
      have hcd2 : classOkD classify xs := hcls
      have hnd : 1 + needEntries xs ≤ f' + 1 := hneed
      have hsplit : printValue (.dict xs) ++ rest
          = '\x7b' :: (printEntries xs ++ '\x7d' :: rest) := by
        show ('\x7b' :: (printEntries xs ++ ['\x7d'])) ++ rest = _
        simp [List.append_assoc]
      have hskip : skipWs (printEntries xs ++ '\x7d' :: rest)
          = printEntries xs ++ '\x7d' :: rest :=
        skipWs_printEntries xs _ (by exact (by decide : isWsChar '\x7d' = false))
      have hR := (ih f' (by omega)).2.2 .nil xs rest hwd hcd2 (by omega)
        (freshD_nil xs)
      rw [hsplit, readValue, if_neg (by decide : ¬('\x7b' = '[')), if_pos rfl,
        hskip, hR]
      exact rfl
  · intro xs rest hwf hcls hneed
    obtain ⟨f', rfl⟩ : ∃ f', f = f' + 1 :=
      ⟨f - 1, by have := needItems_pos xs; omega⟩
    cases xs with
    | nil =>
      show readItems classify (f' + 1) ([] ++ ']' :: rest) = .ok (.nil, rest)
      rw [List.nil_append, readItems, if_pos rfl]
    | cons x ys =>
      have h2 : (wfValue x && wfList ys) = true := hwf
      obtain ⟨hwx, hwys⟩ := andE _ _ h2
      have hcx : classOkV classify x ∧ classOkL classify ys := hcls
      obtain ⟨c, ct, hct, hcw, hcb⟩ := printValue_head x hwx
      have hv1 := needValue_pos x
      cases ys with
      | nil =>
        have hn3 : 1 + needValue x + 1 ≤ f' + 1 := hneed
        have hP := (ih f' (by omega)).1 x (']' :: rest) hwx hcx.1 (by omega)
          (Or.inr (Or.inl rfl))
        have hP2 : readValue classify f' (c :: (ct ++ ']' :: rest))
            = .ok (x, ']' :: rest) := by
          rw [← List.cons_append, ← hct]
          exact hP
        show readItems classify (f' + 1) (printValue x ++ ']' :: rest)
            = .ok (.cons x .nil, rest)
        rw [hct, List.cons_append]
        exact readItems_step_close classify f' c _ hcb x rest hP2
      | cons y ys2 =>
        have hi1 := needItems_pos (.cons y ys2)
        have hn3 : 1 + needValue x + needItems (.cons y ys2) ≤ f' + 1 := hneed
        have hP := (ih f' (by omega)).1 x
          (',' :: ' ' :: (printItems (.cons y ys2) ++ ']' :: rest)) hwx hcx.1
          (by omega) (Or.inl rfl)
        have hQ := (ih f' (by omega)).2.1 (.cons y ys2) rest hwys hcx.2 (by omega)
        have hskips : skipWs (printItems (.cons y ys2) ++ ']' :: rest)
            = printItems (.cons y ys2) ++ ']' :: rest :=
          skipWs_printItems (.cons y ys2) hwys _
            (by exact (by decide : isWsChar ']' = false))
        have hP2 : readValue classify f'
            (c :: (ct ++ (',' :: ' ' :: (printItems (.cons y ys2) ++ ']' :: rest))))
            = .ok (x, ',' :: ' ' :: (printItems (.cons y ys2) ++ ']' :: rest)) := by
          rw [← List.cons_append, ← hct]
          exact hP
        show readItems classify (f' + 1)
            ((printValue x ++ ',' :: ' ' :: printItems (.cons y ys2)) ++ ']' :: rest)
            = .ok (.cons x (.cons y ys2), rest)
        rw [List.append_assoc, List.cons_append, List.cons_append, hct,
          List.cons_append,
          readItems_step_comma classify f' c _ hcb x _ hskips hP2, hQ]
  · intro acc xs rest hwf hcls hneed hfresh
    obtain ⟨f', rfl⟩ : ∃ f', f = f' + 1 :=
      ⟨f - 1, by have := needEntries_pos xs; omega⟩
    cases xs with
    | nil =>
      show readEntries classify (f' + 1) acc ([] ++ '\x7d' :: rest)
          = .ok (CVDict.cat acc .nil, rest)
      rw [List.nil_append, readEntries, if_pos rfl, CVDict.cat_nil]
    | cons k v ys =>
      have h2 : ((!dictHasKey ys k && wfValue v) && wfDict ys) = true := hwf
      obtain ⟨h3, hwys⟩ := andE _ _ h2
      obtain ⟨h4, hwv⟩ := andE _ _ h3
      have hknot : dictHasKey ys k = false := by simpa using h4
      have hcv : classOkV classify v ∧ classOkD classify ys := hcls
      have hne : 2 + needValue v + needEntries ys ≤ f' + 1 := hneed
      have hv1 := needValue_pos v
      have he1 := needEntries_pos ys
      have hputfresh : dictPut acc k v = dictAppend acc k v :=
        dictPut_fresh acc k v (freshD_head acc k v ys hfresh)
      cases ys with
      | nil =>
        have hP := (ih f' (by omega)).1 v ('\x7d' :: rest) hwv hcv.1 (by omega)
          (Or.inr (Or.inr rfl))
        have hskipv : skipWs (printValue v ++ '\x7d' :: rest)
            = printValue v ++ '\x7d' :: rest := skipWs_printValue v hwv _
        show readEntries classify (f' + 1) acc
            ((printEscaped k ++ ' ' :: '=' :: ' ' :: printValue v) ++ '\x7d' :: rest)
            = .ok (CVDict.cat acc (.cons k v .nil), rest)
        rw [List.append_assoc, List.cons_append, List.cons_append,
          List.cons_append,
          readEntries_step classify f' acc k (printValue v ++ '\x7d' :: rest) v
            ('\x7d' :: rest) hskipv hP, hputfresh,
          skipWs_not_ws ('\x7d' :: rest)
            (by exact (by decide : isWsChar '\x7d' = false))]
        obtain ⟨f'', rfl⟩ : ∃ f'', f' = f'' + 1 := ⟨f' - 1, by omega⟩
        rw [contEntries_close classify f'' (dictAppend acc k v) rest]
        have hcat := dictAppend_cat acc k v .nil
        rw [CVDict.cat_nil] at hcat
        rw [hcat]
      | cons k2 v2 ys2 =>
        have hwys2 : wfDict (.cons k2 v2 ys2) = true := hwys
        have hP := (ih f' (by omega)).1 v
          (',' :: ' ' :: (printEntries (.cons k2 v2 ys2) ++ '\x7d' :: rest))
          hwv hcv.1 (by omega) (Or.inl rfl)
        show readEntries classify (f' + 1) acc
            (((printEscaped k ++ ' ' :: '=' :: ' ' :: printValue v)
              ++ ',' :: ' ' :: printEntries (.cons k2 v2 ys2)) ++ '\x7d' :: rest)
            = .ok (CVDict.cat acc (.cons k v (.cons k2 v2 ys2)), rest)
        rw [List.append_assoc, List.append_assoc, List.cons_append,
          List.cons_append, List.cons_append, List.cons_append,
          List.cons_append,
          readEntries_step classify f' acc k
            (printValue v ++ ',' :: ' ' :: (printEntries (.cons k2 v2 ys2)
              ++ '\x7d' :: rest))
            v (',' :: ' ' :: (printEntries (.cons k2 v2 ys2) ++ '\x7d' :: rest))
            (skipWs_printValue v hwv _) hP, hputfresh,
          skipWs_not_ws _ (by exact (by decide : isWsChar ',' = false))]
        obtain ⟨f'', rfl⟩ : ∃ f'', f' = f'' + 1 := ⟨f' - 1, by omega⟩
        rw [contEntries_comma classify f'' (dictAppend acc k v) _
          (skipWs_printEntries (.cons k2 v2 ys2) _
            (by exact (by decide : isWsChar '\x7d' = false)))]
        have hR := (ih f'' (by omega)).2.2 (dictAppend acc k v) (.cons k2 v2 ys2)
          rest hwys2 hcv.2 (by omega)
          (freshD_step acc k v (.cons k2 v2 ys2) hfresh hknot)
        rw [hR, dictAppend_cat]

/-- IEEE equality of two doubles forces them equal (`nan` never compares
equal, even to itself). -/
theorem ieeeEq_eq (r1 r2 : R64) (h : r1.ieeeEq r2 = true) : r1 = r2 := by
  cases r1 with
  | fin a =>
    cases r2 with
    | fin b => rw [eq_of_beq (h : (a == b) = true)]
    | posInf =>
      have h2 : false = true := h
      exact Bool.noConfusion h2
    | negInf =>
      have h2 : false = true := h
      exact Bool.noConfusion h2
    | nan =>
      have h2 : false = true := h
      exact Bool.noConfusion h2
  | posInf =>
    cases r2 with
    | fin b =>
      have h2 : false = true := h
      exact Bool.noConfusion h2
    | posInf => rfl
    | negInf =>
      have h2 : false = true := h
      exact Bool.noConfusion h2
    | nan =>
      have h2 : false = true := h
      exact Bool.noConfusion h2
  | negInf =>
    cases r2 with
    | fin b =>
      have h2 : false = true := h
      exact Bool.noConfusion h2
    | posInf =>
      have h2 : false = true := h
      exact Bool.noConfusion h2
    | negInf => rfl
    | nan =>
      have h2 : false = true := h
      exact Bool.noConfusion h2
  | nan =>
    cases r2 with
    | fin b =>
      have h2 : false = true := h
      exact Bool.noConfusion h2
    | posInf =>
      have h2 : false = true := h
      exact Bool.noConfusion h2
    | negInf =>
      have h2 : false = true := h
      exact Bool.noConfusion h2
    | nan =>
      have h2 : false = true := h
      exact Bool.noConfusion h2

mutual
/-- The modelled `operator==` only accepts equal values. -/
theorem eq_of_valueEq : ∀ a b : ConfigValue, valueEq a b = true → a = b
  | .none, b, h => by
    cases b with
    | none => rfl
    | integer b1 =>
      have h2 : false = true := h
      exact Bool.noConfusion h2
    | boolean b1 =>
      have h2 : false = true := h
      exact Bool.noConfusion h2
    | real b1 =>
      have h2 : false = true := h
      exact Bool.noConfusion h2
    | timespan b1 =>
      have h2 : false = true := h
      exact Bool.noConfusion h2
    | uri b1 =>
      have h2 : false = true := h
      exact Bool.noConfusion h2
    | string b1 =>
      have h2 : false = true := h
      exact Bool.noConfusion h2
    | list b1 =>
      have h2 : false = true := h
      exact Bool.noConfusion h2
    | dict b1 =>
      have h2 : false = true := h
      exact Bool.noConfusion h2
  | .integer a1, b, h => by
    cases b with
    | none =>
      have h2 : false = true := h
      exact Bool.noConfusion h2
    | integer b1 => rw [eq_of_beq (h : (a1 == b1) = true)]
    | boolean b1 =>
      have h2 : false = true := h
      exact Bool.noConfusion h2
    | real b1 =>
      have h2 : false = true := h
      exact Bool.noConfusion h2
    | timespan b1 =>
      have h2 : false = true := h
      exact Bool.noConfusion h2
    | uri b1 =>
      have h2 : false = true := h
      exact Bool.noConfusion h2
    | string b1 =>
      have h2 : false = true := h
      exact Bool.noConfusion h2
    | list b1 =>
      have h2 : false = true := h
      exact Bool.noConfusion h2
    | dict b1 =>
      have h2 : false = true := h
      exact Bool.noConfusion h2
  | .boolean a1, b, h => by
    cases b with
    | none =>
      have h2 : false = true := h
      exact Bool.noConfusion h2
    | integer b1 =>
      have h2 : false = true := h
      exact Bool.noConfusion h2
    | boolean b1 => rw [eq_of_beq (h : (a1 == b1) = true)]
    | real b1 =>
      have h2 : false = true := h
      exact Bool.noConfusion h2
    | timespan b1 =>
      have h2 : false = true := h
      exact Bool.noConfusion h2
    | uri b1 =>
      have h2 : false = true := h
      exact Bool.noConfusion h2
    | string b1 =>
      have h2 : false = true := h
      exact Bool.noConfusion h2
    | list b1 =>
      have h2 : false = true := h
      exact Bool.noConfusion h2
    | dict b1 =>
      have h2 : false = true := h
      exact Bool.noConfusion h2
  | .real a1, b, h => by
    cases b with
    | none =>
      have h2 : false = true := h
      exact Bool.noConfusion h2
    | integer b1 =>
      have h2 : false = true := h
      exact Bool.noConfusion h2
    | boolean b1 =>
      have h2 : false = true := h
      exact Bool.noConfusion h2
    | real b1 => rw [ieeeEq_eq a1 b1 (h : a1.ieeeEq b1 = true)]
    | timespan b1 =>
      have h2 : false = true := h
      exact Bool.noConfusion h2
    | uri b1 =>
      have h2 : false = true := h
      exact Bool.noConfusion h2
    | string b1 =>
      have h2 : false = true := h
      exact Bool.noConfusion h2
    | list b1 =>
      have h2 : false = true := h
      exact Bool.noConfusion h2
    | dict b1 =>
      have h2 : false = true := h
      exact Bool.noConfusion h2
  | .timespan a1, b, h => by
    cases b with
    | none =>
      have h2 : false = true := h
      exact Bool.noConfusion h2
    | integer b1 =>
      have h2 : false = true := h
      exact Bool.noConfusion h2
    | boolean b1 =>
      have h2 : false = true := h
      exact Bool.noConfusion h2
    | real b1 =>
      have h2 : false = true := h
      exact Bool.noConfusion h2
    | timespan b1 => rw [eq_of_beq (h : (a1 == b1) = true)]
    | uri b1 =>
      have h2 : false = true := h
      exact Bool.noConfusion h2
    | string b1 =>
      have h2 : false = true := h
      exact Bool.noConfusion h2
    | list b1 =>
      have h2 : false = true := h
      exact Bool.noConfusion h2
    | dict b1 =>
      have h2 : false = true := h
      exact Bool.noConfusion h2
  | .uri a1, b, h => by
    cases b with
    | none =>
      have h2 : false = true := h
      exact Bool.noConfusion h2
    | integer b1 =>
      have h2 : false = true := h
      exact Bool.noConfusion h2
    | boolean b1 =>
      have h2 : false = true := h
      exact Bool.noConfusion h2
    | real b1 =>
      have h2 : false = true := h
      exact Bool.noConfusion h2
    | timespan b1 =>
      have h2 : false = true := h
      exact Bool.noConfusion h2
    | uri b1 => rw [eq_of_beq (h : (a1 == b1) = true)]
    | string b1 =>
      have h2 : false = true := h
      exact Bool.noConfusion h2
    | list b1 =>
      have h2 : false = true := h
      exact Bool.noConfusion h2
    | dict b1 =>
      have h2 : false = true := h
      exact Bool.noConfusion h2
  | .string a1, b, h => by
    cases b with
    | none =>
      have h2 : false = true := h
      exact Bool.noConfusion h2
    | integer b1 =>
      have h2 : false = true := h
      exact Bool.noConfusion h2
    | boolean b1 =>
      have h2 : false = true := h
      exact Bool.noConfusion h2
    | real b1 =>
      have h2 : false = true := h
      exact Bool.noConfusion h2
    | timespan b1 =>
      have h2 : false = true := h
      exact Bool.noConfusion h2
    | uri b1 =>
      have h2 : false = true := h
      exact Bool.noConfusion h2
    | string b1 => rw [eq_of_beq (h : (a1 == b1) = true)]
    | list b1 =>
      have h2 : false = true := h
      exact Bool.noConfusion h2
    | dict b1 =>
      have h2 : false = true := h
      exact Bool.noConfusion h2
  | .list a1, b, h => by
    cases b with
    | none =>
      have h2 : false = true := h
      exact Bool.noConfusion h2
    | integer b1 =>
      have h2 : false = true := h
      exact Bool.noConfusion h2
    | boolean b1 =>
      have h2 : false = true := h
      exact Bool.noConfusion h2
    | real b1 =>
      have h2 : false = true := h
      exact Bool.noConfusion h2
    | timespan b1 =>
      have h2 : false = true := h
      exact Bool.noConfusion h2
    | uri b1 =>
      have h2 : false = true := h
      exact Bool.noConfusion h2
    | string b1 =>
      have h2 : false = true := h
      exact Bool.noConfusion h2
    | list b1 => rw [eq_of_listEq a1 b1 (h : listEq a1 b1 = true)]
    | dict b1 =>
      have h2 : false = true := h
      exact Bool.noConfusion h2
  | .dict a1, b, h => by
    cases b with
    | none =>
      have h2 : false = true := h
      exact Bool.noConfusion h2
    | integer b1 =>
      have h2 : false = true := h
      exact Bool.noConfusion h2
    | boolean b1 =>
      have h2 : false = true := h
      exact Bool.noConfusion h2
    | real b1 =>
      have h2 : false = true := h
      exact Bool.noConfusion h2
    | timespan b1 =>
      have h2 : false = true := h
      exact Bool.noConfusion h2
    | uri b1 =>
      have h2 : false = true := h
      exact Bool.noConfusion h2
    | string b1 =>
      have h2 : false = true := h
      exact Bool.noConfusion h2
    | list b1 =>
      have h2 : false = true := h
      exact Bool.noConfusion h2
    | dict b1 => rw [eq_of_dictEq a1 b1 (h : dictEq a1 b1 = true)]
/-- Element-wise list equality only accepts equal lists. -/
theorem eq_of_listEq : ∀ a b : CVList, listEq a b = true → a = b
  | .nil, b, h => by
    cases b with
    | nil => rfl
    | cons y ys =>
      have h2 : false = true := h
      exact Bool.noConfusion h2
  | .cons x xs, b, h => by
    cases b with
    | nil =>
      have h2 : false = true := h
      exact Bool.noConfusion h2
    | cons y ys =>
      obtain ⟨h1, h2⟩ := andE _ _ (h : (valueEq x y && listEq xs ys) = true)
      rw [eq_of_valueEq x y h1, eq_of_listEq xs ys h2]
/-- Entry-wise dictionary equality only accepts equal dictionaries. -/
theorem eq_of_dictEq : ∀ a b : CVDict, dictEq a b = true → a = b
  | .nil, b, h => by
    cases b with
    | nil => rfl
    | cons k2 y ys =>
      have h2 : false = true := h
      exact Bool.noConfusion h2
  | .cons k x xs, b, h => by
    cases b with
    | nil =>
      have h2 : false = true := h
      exact Bool.noConfusion h2
    | cons k2 y ys =>
      obtain ⟨h3, h2⟩ := andE _ _ (h : ((k == k2) && valueEq x y && dictEq xs ys) = true)
      obtain ⟨hk, h1⟩ := andE _ _ h3
      rw [eq_of_beq hk, eq_of_valueEq x y h1, eq_of_dictEq xs ys h2]
end

mutual
/-- The modelled `operator==` is reflexive on `nan`-free values. -/
theorem valueEq_refl : ∀ a : ConfigValue, nanFreeValue a = true → valueEq a a = true
  | .none, _ => rfl
  | .integer n, _ => by
    show (n == n) = true
    simp
  | .boolean b, _ => by
    show (b == b) = true
    simp
  | .real r, h => by
    cases r with
    | fin q =>
      show (q == q) = true
      simp
    | posInf => rfl
    | negInf => rfl
    | nan =>
      have h2 : false = true := h
      exact Bool.noConfusion h2
  | .timespan n, _ => by
    show (n == n) = true
    simp
  | .uri s, _ => by
    show (s == s) = true
    simp
  | .string s, _ => by
    show (s == s) = true
    simp
  | .list xs, h => by
    show listEq xs xs = true
    exact listEq_refl xs (h : nanFreeList xs = true)
  | .dict xs, h => by
    show dictEq xs xs = true
    exact dictEq_refl xs (h : nanFreeDict xs = true)
/-- Element-wise list equality is reflexive on `nan`-free lists. -/
theorem listEq_refl : ∀ xs : CVList, nanFreeList xs = true → listEq xs xs = true
  | .nil, _ => rfl
  | .cons x xs, h => by
    obtain ⟨h1, h2⟩ := andE _ _ (h : (nanFreeValue x && nanFreeList xs) = true)
    show (valueEq x x && listEq xs xs) = true
    rw [valueEq_refl x h1, listEq_refl xs h2]
    rfl
/-- Entry-wise dictionary equality is reflexive on `nan`-free
dictionaries. -/
theorem dictEq_refl : ∀ xs : CVDict, nanFreeDict xs = true → dictEq xs xs = true
  | .nil, _ => rfl
  | .cons k v xs, h => by
    obtain ⟨h1, h2⟩ := andE _ _ (h : (nanFreeValue v && nanFreeDict xs) = true)
    show ((k == k) && valueEq v v && dictEq xs xs) = true
    rw [valueEq_refl v h1, dictEq_refl xs h2]
    simp
end


mutual
/-- The strict classifier inverts every run-printed leaf of a plain
value (only booleans print as runs there). -/
theorem classOkStrictV : ∀ v : ConfigValue, plainValue v = true →
    classOkV classifyStrict v
  | .none, h => by
    have h2 : false = true := h
    exact Bool.noConfusion h2
  | .integer n, _ => by exact trivial
  | .boolean b, _ => by
    cases b
    · show classifyStrict "false".toList = .boolean false
      decide
    · show classifyStrict "true".toList = .boolean true
      decide
  | .real r, h => by
    cases r with
    | fin q => exact trivial
    | posInf =>
      have h2 : false = true := h
      exact Bool.noConfusion h2
    | negInf =>
      have h2 : false = true := h
      exact Bool.noConfusion h2
    | nan =>
      have h2 : false = true := h
      exact Bool.noConfusion h2
  | .timespan n, _ => by exact trivial
  | .uri u, h => by
    have h2 : false = true := h
    exact Bool.noConfusion h2
  | .string s, _ => by exact trivial
  | .list xs, h => by
    show classOkL classifyStrict xs
    exact classOkStrictL xs (h : plainList xs = true)
  | .dict xs, h => by
    show classOkD classifyStrict xs
    exact classOkStrictD xs (h : plainDict xs = true)
/-- Strict classifier inversion for plain list elements. -/
theorem classOkStrictL : ∀ xs : CVList, plainList xs = true →
    classOkL classifyStrict xs
  | .nil, _ => by exact trivial
  | .cons x xs, h => by
    obtain ⟨h1, h2⟩ := andE _ _ (h : (plainValue x && plainList xs) = true)
    exact ⟨classOkStrictV x h1, classOkStrictL xs h2⟩
/-- Strict classifier inversion for plain dictionary entries. -/
theorem classOkStrictD : ∀ xs : CVDict, plainDict xs = true →
    classOkD classifyStrict xs
  | .nil, _ => by exact trivial
  | .cons k v xs, h => by
    obtain ⟨h1, h2⟩ := andE _ _ (h : (plainValue v && plainDict xs) = true)
    exact ⟨classOkStrictV v h1, classOkStrictD xs h2⟩
end

mutual
/-- The canonical classifier inverts every run-printed leaf of a
well-formed value. -/
theorem classOkCanonicalV : ∀ v : ConfigValue, wfValue v = true →
    classOkV classifyCanonical v
  | .none, _ => by
    show classifyCanonical "null".toList = .none
    decide
  | .integer n, _ => by exact trivial
  | .boolean b, _ => by
    cases b
    · show classifyCanonical "false".toList = .boolean false
      decide
    · show classifyCanonical "true".toList = .boolean true
      decide
  | .real r, h => by
    cases r with
    | fin q => exact trivial
    | posInf =>
      show classifyCanonical "inf".toList = .real .posInf
      decide
    | negInf =>
      show classifyCanonical ['-', 'i', 'n', 'f'] = .real .negInf
      decide
    | nan =>
      show classifyCanonical "nan".toList = .real .nan
      decide
  | .timespan n, _ => by exact trivial
  | .uri u, h => by
    show classifyCanonical u.toList = .uri u
    have hv : validUri u = true := h
    have h1 : u.toList ≠ "true".toList := by
      intro he
      rw [validUri, he] at hv
      exact absurd hv (by decide)
    have h2 : u.toList ≠ "false".toList := by
      intro he
      rw [validUri, he] at hv
      exact absurd hv (by decide)
    have h3 : u.toList ≠ "null".toList := by
      intro he
      rw [validUri, he] at hv
      exact absurd hv (by decide)
    have h4 : u.toList ≠ "nan".toList := by
      intro he
      rw [validUri, he] at hv
      exact absurd hv (by decide)
    have h5 : u.toList ≠ "inf".toList := by
      intro he
      rw [validUri, he] at hv
      exact absurd hv (by decide)
    have h6 : u.toList ≠ ['-', 'i', 'n', 'f'] := by
      intro he
      rw [validUri, he] at hv
      exact absurd hv (by decide)
    have hv2 : validUri ⟨u.toList⟩ = true := hv
    rw [classifyCanonical, if_neg h1, if_neg h2, if_neg h3, if_neg h4,
      if_neg h5, if_neg h6, if_pos hv2]
    exact rfl
  | .string s, _ => by exact trivial
  | .list xs, h => by
    show classOkL classifyCanonical xs
    exact classOkCanonicalL xs (h : wfList xs = true)
  | .dict xs, h => by
    show classOkD classifyCanonical xs
    exact classOkCanonicalD xs (h : wfDict xs = true)
/-- Canonical classifier inversion for well-formed list elements. -/
theorem classOkCanonicalL : ∀ xs : CVList, wfList xs = true →
    classOkL classifyCanonical xs
  | .nil, _ => by exact trivial
  | .cons x xs, h => by
    obtain ⟨h1, h2⟩ := andE _ _ (h : (wfValue x && wfList xs) = true)
    exact ⟨classOkCanonicalV x h1, classOkCanonicalL xs h2⟩
/-- Canonical classifier inversion for well-formed dictionary entries. -/
theorem classOkCanonicalD : ∀ xs : CVDict, wfDict xs = true →
    classOkD classifyCanonical xs
  | .nil, _ => by exact trivial
  | .cons k v xs, h => by
    obtain ⟨h3, h2⟩ := andE _ _ (h : ((!dictHasKey xs k && wfValue v) && wfDict xs) = true)
    obtain ⟨h4, h1⟩ := andE _ _ h3
    exact ⟨classOkCanonicalV v h1, classOkCanonicalD xs h2⟩
end

/-- The canonical reader inverts the canonical printer on every
well-formed value. -/
theorem readCanonical_print (v : ConfigValue) (hwf : wfValue v = true) :
    readCanonical (printValue v) = .ok v := by
  rw [readCanonical, readConfig]
  have hb := needValue_le v
  have hP := (readPrint classifyCanonical (2 * (printValue v).length + 2)).1 v []
    hwf (classOkCanonicalV v hwf) (by omega) trivial
  rw [List.append_nil] at hP
  rw [hP]
  exact rfl

/-- The strict grammar inverts the canonical printer on every well-formed
plain value. -/
theorem readStrict_print (v : ConfigValue) (hwf : wfValue v = true)
    (hpl : plainValue v = true) :
    readConfig classifyStrict (printValue v) = .ok v := by
  rw [readConfig]
  have hb := needValue_le v
  have hP := (readPrint classifyStrict (2 * (printValue v).length + 2)).1 v []
    hwf (classOkStrictV v hpl) (by omega) trivial
  rw [List.append_nil] at hP
  rw [hP]
  exact rfl

/-- The canonical printer is injective on well-formed values. -/
theorem printValue_inj (a b : ConfigValue) (hwa : wfValue a = true)
    (hwb : wfValue b = true) (h : printValue a = printValue b) : a = b := by
  have h1 := readCanonical_print a hwa
  have h2 := readCanonical_print b hwb
  rw [h, h2] at h1
  injection h1 with h3
  exact h3.symm

/-- C3 counterexample: a URI value does not survive `parse ∘ to_string`:
the strict grammar has no URI production, so the text parses back as an
unquoted string, not a URI. -/
theorem c3_counterexample :
    ConfigValue.parse (to_string (.uri "a:b")) = .ok (.string "a:b") ∧
    ConfigValue.uri "a:b" ≠ .string "a:b" :=
  ⟨rfl, by decide⟩

/-- C3 (amended): `parse ∘ to_string` is the identity on every well-formed
value built from the plain variants — integer, boolean, finite real,
timespan and string leaves, and lists and dictionaries thereof.  The
original claim also covered `uri` leaves and non-finite reals; the
counterexample shows the URI case comes back as a string. -/
theorem c3_roundtrip_amended (v : ConfigValue) (hwf : wfValue v = true)
    (hpl : plainValue v = true) :
    ConfigValue.parse (to_string v) = .ok v := by
  obtain ⟨c, t, hct, hcw, -⟩ := printValue_head v hwf
  have hskip : skipWs (to_string v).toList = c :: t := by
    show skipWs (printValue v) = c :: t
    rw [skipWs_not_ws (printValue v) (by rw [hct]; exact hcw), hct]
  rw [parse_cons (to_string v) c t hskip, ← hct, readStrict_print v hwf hpl]

/-- Witness for the amended C3 at a concrete nested value. -/
theorem c3_witness :
    wfValue (.list (.cons (.integer 1) (.cons (.boolean true) .nil))) = true ∧
    plainValue (.list (.cons (.integer 1) (.cons (.boolean true) .nil))) = true ∧
    ConfigValue.parse
        (to_string (.list (.cons (.integer 1) (.cons (.boolean true) .nil))))
      = .ok (.list (.cons (.integer 1) (.cons (.boolean true) .nil))) :=
  ⟨by decide, by decide, c3_roundtrip_amended _ (by decide) (by decide)⟩

/-- C4 counterexample: two `nan` reals are `==`-unequal although their
canonical strings and their variant tags agree. -/
theorem c4_counterexample :
    valueEq (.real .nan) (.real .nan) = false ∧
    to_string (.real .nan) = to_string (.real .nan) ∧
    ConfigValue.tagIndex (.real .nan) = ConfigValue.tagIndex (.real .nan) :=
  ⟨rfl, rfl, rfl⟩

/-- C4 (amended): on well-formed, `nan`-free values, `operator==` holds
exactly when the canonical strings and the variant tags agree.  The
original unconditional claim is refuted by `nan`, which compares unequal
to itself despite equal text and tag. -/
theorem c4_eq_iff_amended (a b : ConfigValue) (hwa : wfValue a = true)
    (hwb : wfValue b = true) (hna : nanFreeValue a = true)
    (hnb : nanFreeValue b = true) :
    valueEq a b = true ↔
      (to_string a = to_string b ∧
        ConfigValue.tagIndex a = ConfigValue.tagIndex b) := by
  constructor
  · intro h
    have he := eq_of_valueEq a b h
    subst he
    exact ⟨rfl, rfl⟩
  · rintro ⟨h1, -⟩
    have h2 : printValue a = printValue b := congrArg String.data h1
    have he := printValue_inj a b hwa hwb h2
    subst he
    exact valueEq_refl a hna

/-- Witness for the amended C4 at concrete values. -/
theorem c4_witness :
    wfValue (.integer 7) = true ∧ nanFreeValue (.integer 7) = true ∧
    (valueEq (.integer 7) (.integer 7) = true ↔
      (to_string (.integer 7) = to_string (.integer 7) ∧
        ConfigValue.tagIndex (.integer 7) = ConfigValue.tagIndex (.integer 7))) :=
  ⟨by decide, by decide,
    c4_eq_iff_amended (.integer 7) (.integer 7) (by decide) (by decide)
      (by decide) (by decide)⟩
